import Mathlib

/-!
Verification development for the airline price dashboard (`src/app.py`).

The Python source is shallowly embedded as Lean functions:
* strings are `String`/`List Char` (Python `str` is a sequence of characters);
* monetary amounts are `ℚ` (decimal amounts; `round2` rounds to cents, to the
  nearest, which is the only behaviour the statements below depend on,
  never a tie);
* the pandas pipeline `groupby(...).mean()` is modelled by grouping with the
  group keys sorted ascending (pandas' `sort=True` default) and taking the
  arithmetic mean per group; `Series.sort_values()` is modelled by a stable
  sort on the values (numpy's sort is stable on the short arrays that occur
  here: at most one group per configured city);
* network effects (token exchange, offer fetch, text generation) are
  parameters of the route functions, together with explicit call counters.
-/

/-! ### Python string helpers: `str.strip`, `str.split`, `re.sub` for bold -/

/-- The ASCII whitespace characters recognised by Python's `str.strip()`. -/
def isSpace (c : Char) : Bool :=
  c = ' ' ∨ c = '\t' ∨ c = '\n' ∨ c = '\r' ∨ c = '\x0b' ∨ c = '\x0c'

/-- Remove trailing whitespace (the right half of Python's `str.strip()`). -/
def dropTrail : List Char → List Char
  | [] => []
  | c :: rest =>
    match dropTrail rest with
    | [] => if isSpace c then [] else [c]
    | r => c :: r

/-- Python's `str.strip()`: drop leading and trailing whitespace. -/
def pyStrip (l : List Char) : List Char :=
  (dropTrail l).dropWhile isSpace

/-- Python's `str.split('\n')`: split at every newline; `""` splits to `[""]`. -/
def splitNl : List Char → List (List Char)
  | [] => [[]]
  | c :: rest =>
    if c = '\n' then [] :: splitNl rest
    else
      match splitNl rest with
      | l :: ls => (c :: l) :: ls
      | [] => [[c]]

/-- One-pass scanner implementing `re.sub(r'\*\*(.*?)\*\*',
r'<strong>\1</strong>', text)`.  The second argument is `none` while
scanning and `some buf` (reversed capture so far) after an opening `**`.
The capture is lazy (closed by the first following `**`) and, since `.`
does not match a newline, an open span is abandoned — emitted verbatim —
at a newline or at the end of the input; the abandoned text can contain no
further match, because the capture never contains two adjacent stars. -/
def boldRun : List Char → Option (List Char) → List Char
  | [], none => []
  | [], some buf => '*' :: '*' :: buf.reverse
  | [c], none => [c]
  | [c], some buf =>
      if c = '\n' then ('*' :: '*' :: buf.reverse) ++ ['\n']
      else '*' :: '*' :: (c :: buf).reverse
  | c1 :: c2 :: rest, none =>
      if c1 = '*' ∧ c2 = '*' then boldRun rest (some [])
      else c1 :: boldRun (c2 :: rest) none
  | c1 :: c2 :: rest, some buf =>
      if c1 = '*' ∧ c2 = '*' then
        "<strong>".data ++ buf.reverse ++ "</strong>".data ++ boldRun rest none
      else if c1 = '\n' then
        ('*' :: '*' :: buf.reverse) ++ '\n' :: boldRun (c2 :: rest) none
      else boldRun (c2 :: rest) (some (c1 :: buf))

/-- The bold-span substitution applied by `markdown_to_html` before the
line loop. -/
def boldSub (l : List Char) : List Char := boldRun l none

/-- A stripped line that the Python code treats as a list item:
`line.startswith('* ') or line.startswith('- ')`. -/
def isListLine (l : List Char) : Bool :=
  match l with
  | c1 :: c2 :: _ => (c1 = '*' ∨ c1 = '-') ∧ c2 = ' '
  | _ => false

/-- The line loop of `markdown_to_html`: strip each line, skip blank lines,
wrap runs of list items in one `<ul>` block, wrap other lines in `<p>`, and
close a list block left open at the end of the input. -/
def processLines : List (List Char) → Bool → List Char
  | [], inList => if inList then "</ul>".data else []
  | l :: ls, inList =>
    let line := pyStrip l
    if line = [] then processLines ls inList
    else if isListLine line then
      (if inList then [] else "<ul>".data) ++ "<li>".data ++ line.drop 2
        ++ "</li>".data ++ processLines ls true
    else
      (if inList then "</ul>".data else []) ++ "<p>".data ++ line
        ++ "</p>".data ++ processLines ls false

/-- `markdown_to_html` from `app.py`: bold substitution, then strip the whole
text, split into lines and run the line loop. -/
def markdown_to_html (text : String) : String :=
  ⟨processLines (splitNl (pyStrip (boldSub text.data))) false⟩

/-! ### Data model: raw offers and normalized flight records -/

/-- One itinerary segment of a raw offer (`segments[i]`), carrying the
departure timestamp `departure.at`. -/
structure Segment where
  departure_at : String
deriving Repr, DecidableEq

/-- One itinerary of a raw offer (`itineraries[i]`). -/
structure Itinerary where
  segments : List Segment
deriving Repr, DecidableEq

/-- A raw flight offer as consumed by `process_flight_data`:
`price.total` (already parsed as a numeric amount), the validating airline
codes and the itineraries. -/
structure RawOffer where
  price_total : ℚ
  validatingAirlineCodes : List String
  itineraries : List Itinerary
deriving Repr, DecidableEq

/-- A normalized flight record (one row of the pandas DataFrame built by
`process_flight_data`). -/
structure FlightRecord where
  origin : String
  destination : String
  price : ℚ
  airline : String
  departure_date : String
deriving Repr, DecidableEq

/-- Normalization of a single offer.  The `[0]` indexings of the Python
code are fallible (`none` models the `KeyError`/`IndexError` escape), and
`departure.at.split('T')[0]` is the longest prefix without the `'T'`
separator. -/
def processOffer (offer : RawOffer) (origin destination : String) :
    Option FlightRecord := do
  let airline ← offer.validatingAirlineCodes.head?
  let itin ← offer.itineraries.head?
  let seg ← itin.segments.head?
  some { origin := origin, destination := destination,
         price := offer.price_total, airline := airline,
         departure_date := ⟨seg.departure_at.data.takeWhile (fun c => c ≠ 'T')⟩ }

/-- `process_flight_data` from `app.py`: one normalized record per raw
offer; an empty input yields an empty frame; a malformed offer aborts with
an exception (modelled by `none`). -/
def process_flight_data : List RawOffer → String → String → Option (List FlightRecord)
  | [], _, _ => some []
  | o :: os, origin, destination => do
    let r ← processOffer o origin destination
    let rest ← process_flight_data os origin destination
    some (r :: rest)

/-- A decimal digit. -/
def isDigitCh (c : Char) : Bool := '0' ≤ c ∧ c ≤ '9'

/-- ISO calendar-date shape `YYYY-MM-DD`: ten characters, digits with
hyphens at positions 4 and 7. -/
def isIsoDate : List Char → Bool
  | [y1, y2, y3, y4, h1, m1, m2, h2, d1, d2] =>
    isDigitCh y1 && isDigitCh y2 && isDigitCh y3 && isDigitCh y4 &&
    h1 = '-' && isDigitCh m1 && isDigitCh m2 && h2 = '-' &&
    isDigitCh d1 && isDigitCh d2
  | _ => false

/-- Well-formed raw offer: the shape `process_flight_data` assumes — a
validating airline code, an itinerary with a segment, and a departure
timestamp whose part before the `'T'` separator has ISO calendar-date
shape. -/
def wellFormedOffer (o : RawOffer) : Bool :=
  !o.validatingAirlineCodes.isEmpty &&
  match o.itineraries.head? with
  | none => false
  | some itin =>
    match itin.segments.head? with
    | none => false
    | some seg => isIsoDate (seg.departure_at.data.takeWhile (fun c => c ≠ 'T'))

/-! ### Aggregation: group-by-mean, rounding and stable sorting -/

/-- Arithmetic mean of a list of amounts. -/
def meanOf (ps : List ℚ) : ℚ := ps.sum / ps.length

/-- Round to 2 decimal places (to the nearest cent). -/
def round2 (q : ℚ) : ℚ := (round (q * 100) : ℤ) / 100

/-- Stable insertion step: `x` is placed before the first element `y` that
is not strictly below it (`¬ r y x`), hence after every earlier element of
equal rank. -/
def insertBy (r : α → α → Prop) [DecidableRel r] (x : α) : List α → List α
  | [] => [x]
  | y :: ys => if r y x then y :: insertBy r x ys else x :: y :: ys

/-- Stable insertion sort by the strict relation `r`. -/
def sortBy (r : α → α → Prop) [DecidableRel r] : List α → List α
  | [] => []
  | x :: xs => insertBy r x (sortBy r xs)

/-- Distinct keys in order of first occurrence (insertion order). -/
def firstDedup : List String → List String
  | [] => []
  | x :: xs => x :: (firstDedup xs).filter (fun y => y ≠ x)

/-- `df.groupby(key)[price].mean()` with pandas' default `sort=True`: the
distinct keys in ascending order, each mapped to the mean price of its
group. -/
def groupMeansBy (key : FlightRecord → String) (rs : List FlightRecord) :
    List (String × ℚ) :=
  (sortBy (fun a b : String => a < b) (rs.map key).dedup).map
    (fun k => (k, meanOf ((rs.filter (fun r => key r = k)).map FlightRecord.price)))

/-- Ordering on grouped rows by value (mean price) only. -/
def valLt (a b : String × ℚ) : Prop := a.2 < b.2

instance : DecidableRel valLt := fun a b => by unfold valLt; infer_instance

/-- Route aggregation of the page route (`index`):
`popular_routes_df.groupby('origin')['price'].mean().sort_values().round(2)` —
group means with keys ascending, stable sort by mean, then round. -/
def popular_routes (rs : List FlightRecord) : List (String × ℚ) :=
  (sortBy valLt (groupMeansBy FlightRecord.origin rs)).map
    (fun kv => (kv.1, round2 kv.2))

/-- Trend aggregation (both routes):
`price_trends_df.groupby('departure_date')['price'].mean().round(2).sort_index()`
— group means with date keys ascending, then round (the index is already
sorted, so `sort_index` leaves it unchanged). -/
def price_trend_agg (rs : List FlightRecord) : List (String × ℚ) :=
  (groupMeansBy FlightRecord.departure_date rs).map
    (fun kv => (kv.1, round2 kv.2))

/-! ### Route aggregation as the spec describes it, and as amended -/

/-- Group means with keys in order of first occurrence (insertion order),
as the spec's description of route aggregation assumes. -/
def groupMeansFirst (rs : List FlightRecord) : List (String × ℚ) :=
  (firstDedup (rs.map FlightRecord.origin)).map
    (fun k => (k, meanOf ((rs.filter (fun r => r.origin = k)).map FlightRecord.price)))

/-- Route aggregation exactly as claim C1 words it: group by origin in
insertion order, round each mean to 2 decimals, then stable-sort ascending
by the (rounded) mean so that ties keep insertion order. -/
def routeAgg_specC1 (rs : List FlightRecord) : List (String × ℚ) :=
  sortBy valLt ((groupMeansFirst rs).map (fun kv => (kv.1, round2 kv.2)))

/-- Lexicographic strict order on (key, mean) rows: by mean, then by
origin code. -/
def lexLt (a b : String × ℚ) : Prop :=
  a.2 < b.2 ∨ (a.2 = b.2 ∧ a.1 < b.1)

instance : DecidableRel lexLt := fun a b => by unfold lexLt; infer_instance

/-- Nonstrict companion of `lexLt`. -/
def lexLe (a b : String × ℚ) : Prop :=
  a.2 < b.2 ∨ (a.2 = b.2 ∧ a.1 ≤ b.1)

/-- Route aggregation as amended: group by origin (insertion order), sort
ascending by unrounded mean with ties broken by ascending origin code, then
round each mean to 2 decimals. -/
def routeAgg_amendedC1 (rs : List FlightRecord) : List (String × ℚ) :=
  (sortBy lexLt (groupMeansFirst rs)).map (fun kv => (kv.1, round2 kv.2))

/-! ### Configuration and the insight generator -/

/-- The static city table of `app.py` (insertion order preserved). -/
def CITIES : List (String × String) :=
  [("SYD", "Sydney"), ("MEL", "Melbourne"), ("BNE", "Brisbane"),
   ("PER", "Perth"), ("ADL", "Adelaide"), ("CBR", "Canberra"),
   ("HBA", "Hobart")]

/-- `CITIES.get(code)` of Python: `None` (rendered as `"None"` inside an
f-string) when the code is unknown. -/
def citiesGetOrNone (code : String) : String :=
  match CITIES.lookup code with
  | some name => name
  | none => "None"

/-- `CITIES.get(code, code)` of Python: fall back to the code itself. -/
def citiesGetOrSelf (code : String) : String :=
  match CITIES.lookup code with
  | some name => name
  | none => code

/-- The outcome of one call to the text-generation capability:
a usable text, a blocked (empty-parts) response, or a raised exception. -/
inductive GenOutcome where
  | ok (text : String)
  | blocked
  | err
deriving Repr, DecidableEq

/-- The credential check of `get_ai_insights`: Python's
`not GEMINI_API_KEY or GEMINI_API_KEY == "YOUR_GEMINI_API_KEY"` (an unset
variable is `None`, and the empty string is falsy too). -/
def geminiKeyMissing (key : Option String) : Bool :=
  key = none ∨ key = some "" ∨ key = some "YOUR_GEMINI_API_KEY"

/-- `get_ai_insights` from `app.py`.  The text-generation capability is a
parameter (`gen` is the outcome the network call would produce); the second
component counts how many times it is invoked. -/
def get_ai_insights (geminiKey : Option String) (df : List (String × ℚ))
    (gen : GenOutcome) : String × Nat :=
  if geminiKeyMissing geminiKey then
    ("<p>Gemini API key not configured. Insights are unavailable.</p>", 0)
  else if df = [] then
    ("<p>No flight data was available to generate insights.</p>", 0)
  else
    match gen with
    | .ok text => (markdown_to_html text, 1)
    | .blocked =>
      ("<p>The AI response was blocked for safety reasons. Please try a different query.</p>", 1)
    | .err =>
      ("<p>Could not generate AI insights. The Gemini API might be unavailable or the key is invalid.</p>", 1)

/-! ### The trend fetch loop shared by both routes -/

/-- First row attaining the minimum price
(`df.loc[df.groupby('departure_date')['price'].idxmin()]` picks, per date,
the first index at which the group minimum occurs). -/
def argminFirst : List FlightRecord → Option FlightRecord
  | [] => none
  | r :: rest =>
    match argminFirst rest with
    | none => some r
    | some m => if r.price ≤ m.price then some r else some m

/-- `min_price_df`: per departure date (ascending, pandas group order) the
first row attaining that date's minimum price. -/
def minPerDate (df : List FlightRecord) : List FlightRecord :=
  (sortBy (fun a b : String => a < b) (df.map FlightRecord.departure_date).dedup).filterMap
    (fun d => argminFirst (df.filter (fun r => r.departure_date = d)))

/-- One iteration of the trend fetch loop: fetch day `i`, normalize, keep
the cheapest row per departure date, concatenate, and count the fetch. -/
def trendStep (origin destination : String) (fetch : Nat → List RawOffer)
    (acc : List FlightRecord × Nat) (i : Nat) : Option (List FlightRecord × Nat) :=
  let flight_data := fetch i
  if flight_data = [] then some (acc.1, acc.2 + 1)
  else
    match process_flight_data flight_data origin destination with
    | none => none
    | some df =>
      if df = [] then some (acc.1, acc.2 + 1)
      else some (acc.1 ++ minPerDate df, acc.2 + 1)

/-- The 30-iteration fetch loop of the trend routes: for each future day
offset `i ∈ [1, 30]` fetch offers, normalize them, keep the cheapest row
per departure date, and concatenate.  Also counts the fetch calls made.
`none` models an exception escaping from `process_flight_data`. -/
def trendLoop (origin destination : String) (fetch : Nat → List RawOffer) :
    Option (List FlightRecord × Nat) :=
  (List.range' 1 30).foldlM (trendStep origin destination fetch) ([], 0)

/-! ### The API route `/api/price-trend` -/

/-- A Python parameter that fails `if not origin`: absent or empty. -/
def pyFalsy (v : Option String) : Bool :=
  v = none ∨ v = some ""

/-- JSON response of the API route: either an error body with an HTTP
status, or a 200 trend body with labels, data and a chart title. -/
inductive ApiResult where
  | errorResp (status : Nat) (error : String)
  | trendResp (labels : List String) (data : List ℚ) (chart_title : String)
deriving Repr, DecidableEq

/-- `api_price_trend` from `app.py`.  Network boundaries are parameters:
`token` is what `get_amadeus_access_token()` would return, `fetch i` what
`search_flight_deals` returns for day offset `i`.  The result is paired
with the number of token exchanges and of fetch calls performed; `none`
models an exception escaping the handler. -/
def api_price_trend (origin destination : Option String)
    (token : Option String) (fetch : Nat → List RawOffer) :
    Option (ApiResult × Nat × Nat) :=
  if pyFalsy origin ∨ pyFalsy destination then
    some (.errorResp 400 "Missing origin or destination parameters", 0, 0)
  else
    let o := origin.getD ""
    let d := destination.getD ""
    match token with
    | none => some (.errorResp 500 "Could not authenticate with Amadeus API", 1, 0)
    | some _ =>
      match trendLoop o d fetch with
      | none => none
      | some (df, nFetch) =>
        if df = [] then
          some (.trendResp [] [] ("No Trend Data for " ++ o ++ " to " ++ d), 1, nFetch)
        else
          let pt := price_trend_agg df
          some (.trendResp (pt.map Prod.fst) (pt.map Prod.snd)
            ("Daily Price Trend: " ++ citiesGetOrNone o ++ " to " ++ citiesGetOrNone d),
            1, nFetch)

/-! ### The page route `/` -/

/-- `origin_cities` as computed on line 168 of `app.py`: every configured
city code different from the selected destination, in table order.  No
validation of the destination value is performed. -/
def origin_cities (destination_city : String) : List String :=
  (CITIES.map Prod.fst).filter (fun code => code ≠ destination_city)

/-- Everything `index` passes to `render_template`. -/
structure PageData where
  cities : List (String × String)
  selected_destination : String
  price_trends : Option (List String × List ℚ)
  popular_routes_chart : Option (List String × List ℚ × List String)
  ai_summary : String
  trend_chart_title : String
deriving Repr, DecidableEq

/-- Result of the page route: the authentication-failure 500 page or a
rendered page. -/
inductive PageResult where
  | authError (body : String) (status : Nat)
  | page (data : PageData)
deriving Repr, DecidableEq

/-- One iteration of the snapshot loop of `index`: fetch tomorrow's offers
for one origin, normalize and concatenate. -/
def snapStep (destination : String) (fetchSnap : String → List RawOffer)
    (acc : List FlightRecord) (origin : String) : Option (List FlightRecord) :=
  match process_flight_data (fetchSnap origin) origin destination with
  | none => none
  | some df => some (acc ++ df)

/-- The snapshot fetch loop of `index`: per origin, fetch tomorrow's offers
and concatenate the normalized rows. -/
def snapshotLoop (origins : List String) (destination : String)
    (fetchSnap : String → List RawOffer) : Option (List FlightRecord) :=
  origins.foldlM (snapStep destination fetchSnap) []

/-- `index` from `app.py`.  `formDestination` is the posted form value
(absent on first load), `token` the token-exchange outcome, `fetchSnap o`
the offers returned for origin `o` on the snapshot date, `fetchTrend i` the
offers for trend day offset `i`, and `geminiKey`/`gen` the text-generation
boundary.  `none` models an exception escaping the handler. -/
def index (formDestination : Option String) (token : Option String)
    (fetchSnap : String → List RawOffer) (fetchTrend : Nat → List RawOffer)
    (geminiKey : Option String) (gen : GenOutcome) : Option PageResult :=
  let destination_city := formDestination.getD "SYD"
  let origins := origin_cities destination_city
  match token with
  | none =>
    some (.authError
      "Error: Could not authenticate with Amadeus API. Please check your API credentials in app.py." 500)
  | some _ =>
    match snapshotLoop origins destination_city fetchSnap with
    | none => none
    | some popular_routes_df =>
      let trendResult :=
        match origins.head? with
        | none => some ([], 0)
        | some trend_origin => trendLoop trend_origin destination_city fetchTrend
      match trendResult with
      | none => none
      | some (price_trends_df, _) =>
        let price_trends_data :=
          if price_trends_df = [] then none
          else
            let pt := price_trend_agg price_trends_df
            some (pt.map Prod.fst, pt.map Prod.snd)
        let trend_chart_title :=
          if price_trends_df = [] then "Daily Price Trend (Next Month)"
          else "Daily Price Trend: " ++
            citiesGetOrNone ((origins.head?).getD "") ++ " to " ++
            citiesGetOrNone destination_city
        if popular_routes_df = [] then
          some (.page
            { cities := CITIES, selected_destination := destination_city,
              price_trends := price_trends_data, popular_routes_chart := none,
              ai_summary := "No data found for the selected destination. This may be due to the route having no availability in the next month or an API error.",
              trend_chart_title := trend_chart_title })
        else
          let pr := popular_routes popular_routes_df
          some (.page
            { cities := CITIES, selected_destination := destination_city,
              price_trends := price_trends_data,
              popular_routes_chart := some
                (pr.map (fun kv => citiesGetOrSelf kv.1 ++ " -> " ++ citiesGetOrSelf destination_city),
                 pr.map Prod.snd, pr.map Prod.fst),
              ai_summary := (get_ai_insights geminiKey pr gen).1,
              trend_chart_title := trend_chart_title })

/-! ### Derived views of the line loop used in the statements below -/

/-- The stripped non-blank lines of a line list: exactly the lines the loop
of `markdown_to_html` acts on. -/
def stripFilter (lines : List (List Char)) : List (List Char) :=
  (lines.map pyStrip).filter (fun l => l ≠ [])

/-- The line loop restricted to already-stripped, non-blank lines. -/
def processClean : List (List Char) → Bool → List Char
  | [], inList => if inList then "</ul>".data else []
  | l :: ls, inList =>
    if isListLine l then
      (if inList then [] else "<ul>".data) ++ "<li>".data ++ l.drop 2
        ++ "</li>".data ++ processClean ls true
    else
      (if inList then "</ul>".data else []) ++ "<p>".data ++ l
        ++ "</p>".data ++ processClean ls false

/-- The last non-blank line of the input (after per-line stripping) is a
list item. -/
def lastLineIsItem (t : List Char) : Bool :=
  match (stripFilter (splitNl t)).getLast? with
  | some l => isListLine l
  | none => false

/-- The string ends with the closing list tag `</ul>`. -/
def endsUl (s : String) : Bool :=
  s.data.reverse.take 5 == ("</ul>".data).reverse

/-! ### Concrete inputs used in counterexamples and witnesses -/

/-- A normalized record with the given origin, destination, price and
departure date. -/
def mkRecord (o d : String) (p : ℚ) (date : String) : FlightRecord :=
  { origin := o, destination := d, price := p, airline := "QF",
    departure_date := date }

/-- Three normalized MEL→SYD records with prices 100, 200, 300 (the spec's
end-to-end scenario). -/
def melRecords : List FlightRecord :=
  [mkRecord "MEL" "SYD" 100 "2025-10-13", mkRecord "MEL" "SYD" 200 "2025-10-13",
   mkRecord "MEL" "SYD" 300 "2025-10-13"]

/-- Two records with equal prices whose origins arrive in anti-alphabetical
order: "B" is inserted before "A". -/
def c1Input : List FlightRecord :=
  [mkRecord "B" "SYD" 100 "2025-10-13", mkRecord "A" "SYD" 100 "2025-10-13"]

/-- Two cheapest-per-date records landing on the same calendar date. -/
def c3Input : List FlightRecord :=
  [mkRecord "MEL" "SYD" 100 "2025-10-14", mkRecord "MEL" "SYD" 201 "2025-10-14"]

/-- A well-formed raw offer with a non-negative total. -/
def c5GoodOffer : RawOffer :=
  { price_total := 199, validatingAirlineCodes := ["QF"],
    itineraries := [{ segments := [{ departure_at := "2025-10-14T10:35:00" }] }] }

/-- A shape-wise well-formed raw offer whose total price is negative. -/
def c5Offer : RawOffer :=
  { price_total := -50, validatingAirlineCodes := ["QF"],
    itineraries := [{ segments := [{ departure_at := "2025-10-14T10:35:00" }] }] }

/-! ### Theorems — sorting infrastructure -/

theorem insertBy_perm (r : α → α → Prop) [DecidableRel r] (x : α) :
    ∀ l : List α, (insertBy r x l).Perm (x :: l) := by
  intro l
  induction l with
  | nil => rfl
  | cons y ys ih =>
    by_cases h : r y x
    · simpa [insertBy, h] using ((ih.cons y).trans (List.Perm.swap x y ys))
    · simp [insertBy, h]

theorem sortBy_perm (r : α → α → Prop) [DecidableRel r] :
    ∀ l : List α, (sortBy r l).Perm l := by
  intro l
  induction l with
  | nil => rfl
  | cons x xs ih => exact (insertBy_perm r x (sortBy r xs)).trans (ih.cons x)

theorem insertBy_pairwise {r S : α → α → Prop} [DecidableRel r] {x : α} :
    ∀ {l : List α}, l.Pairwise S →
    (∀ y ∈ l, r y x → S y x) →
    (∀ y ∈ l, ¬ r y x → S x y) →
    (∀ y ∈ l, ∀ z ∈ l, ¬ r y x → S y z → S x z) →
    (insertBy r x l).Pairwise S := by
  intro l
  induction l with
  | nil => intro _ _ _ _; simp [insertBy]
  | cons y ys ih =>
    intro hl h1 h2 h3
    rcases List.pairwise_cons.mp hl with ⟨hy, hys⟩
    by_cases h : r y x
    · have tail := ih hys (fun z hz hr => h1 z (List.mem_cons_of_mem y hz) hr)
        (fun z hz hr => h2 z (List.mem_cons_of_mem y hz) hr)
        (fun z hz w hw hr hs =>
          h3 z (List.mem_cons_of_mem y hz) w (List.mem_cons_of_mem y hw) hr hs)
      have hyall : ∀ z ∈ insertBy r x ys, S y z := by
        intro z hz
        rcases List.mem_cons.mp ((insertBy_perm r x ys).mem_iff.mp hz) with hzx | hzys
        · exact hzx ▸ h1 y (List.mem_cons_self y ys) h
        · exact hy z hzys
      simpa [insertBy, h] using List.pairwise_cons.mpr ⟨hyall, tail⟩
    · have hxall : ∀ z ∈ y :: ys, S x z := by
        intro z hz
        rcases List.mem_cons.mp hz with hzy | hzys
        · exact hzy ▸ h2 y (List.mem_cons_self y ys) h
        · exact h3 y (List.mem_cons_self y ys) z (List.mem_cons_of_mem y hzys) h (hy z hzys)
      simpa [insertBy, h] using List.pairwise_cons.mpr ⟨hxall, hl⟩

theorem pairwise_and {R S : α → α → Prop} :
    ∀ {l : List α}, l.Pairwise R → l.Pairwise S →
      l.Pairwise (fun a b => R a b ∧ S a b) := by
  intro l
  induction l with
  | nil => intro _ _; exact List.Pairwise.nil
  | cons x xs ih =>
    intro hR hS
    rcases List.pairwise_cons.mp hR with ⟨hRx, hRxs⟩
    rcases List.pairwise_cons.mp hS with ⟨hSx, hSxs⟩
    exact List.pairwise_cons.mpr ⟨fun y hy => ⟨hRx y hy, hSx y hy⟩, ih hRxs hSxs⟩

theorem sortStr_sorted (l : List String) :
    (sortBy (fun a b : String => a < b) l).Pairwise (· ≤ ·) := by
  induction l with
  | nil => exact List.Pairwise.nil
  | cons x xs ih =>
    exact insertBy_pairwise ih (fun y _ h => le_of_lt h)
      (fun y _ h => le_of_not_lt h)
      (fun y _ z _ h hyz => (le_of_not_lt h).trans hyz)

theorem sortVal_sorted (l : List (String × ℚ)) :
    (sortBy valLt l).Pairwise (fun a b => a.2 ≤ b.2) := by
  induction l with
  | nil => exact List.Pairwise.nil
  | cons x xs ih =>
    exact insertBy_pairwise ih (fun y _ h => le_of_lt h)
      (fun y _ h => le_of_not_lt h)
      (fun y _ z _ h hyz => (le_of_not_lt h).trans hyz)

theorem lexLe_val_le {a b : String × ℚ} (h : lexLe a b) : a.2 ≤ b.2 := by
  rcases h with h | ⟨h, _⟩
  · exact le_of_lt h
  · exact le_of_eq h

theorem lexLe_of_not_lexLt {a b : String × ℚ} (h : ¬ lexLt b a) : lexLe a b := by
  unfold lexLt at h
  push_neg at h
  rcases lt_or_le a.2 b.2 with hv | hv
  · exact Or.inl hv
  · have hv2 : a.2 = b.2 := le_antisymm h.1 hv
    exact Or.inr ⟨hv2, h.2 hv2.symm⟩

theorem lexLe_trans {a b c : String × ℚ} (h1 : lexLe a b) (h2 : lexLe b c) :
    lexLe a c := by
  rcases h1 with h1 | ⟨h1, h1k⟩ <;> rcases h2 with h2 | ⟨h2, h2k⟩
  · exact Or.inl (h1.trans h2)
  · exact Or.inl (h2 ▸ h1)
  · exact Or.inl (h1 ▸ h2)
  · exact Or.inr ⟨h1.trans h2, h1k.trans h2k⟩

theorem lexLe_antisymm {a b : String × ℚ} (h1 : lexLe a b) (h2 : lexLe b a) :
    a = b := by
  rcases h1 with h1 | ⟨h1, h1k⟩ <;> rcases h2 with h2 | ⟨h2, h2k⟩
  · exact absurd h2 (lt_asymm h1)
  · exact absurd h1 (h2 ▸ lt_irrefl _)
  · exact absurd h2 (h1 ▸ lt_irrefl _)
  · exact Prod.ext (le_antisymm h1k h2k) h1

instance : IsAntisymm (String × ℚ) lexLe := ⟨fun _ _ => lexLe_antisymm⟩

theorem sortLex_sorted (l : List (String × ℚ)) :
    (sortBy lexLt l).Pairwise lexLe := by
  induction l with
  | nil => exact List.Pairwise.nil
  | cons x xs ih =>
    exact insertBy_pairwise ih
      (fun y _ h => h.imp (fun hv => hv) (fun p => ⟨p.1, p.2.le⟩))
      (fun y _ h => lexLe_of_not_lexLt h)
      (fun y _ z _ h hyz => lexLe_trans (lexLe_of_not_lexLt h) hyz)

theorem sortVal_pairwise_lexLe :
    ∀ l : List (String × ℚ), l.Pairwise (fun a b => a.1 < b.1) →
      (sortBy valLt l).Pairwise lexLe := by
  intro l
  induction l with
  | nil => intro _; exact List.Pairwise.nil
  | cons x xs ih =>
    intro h
    rcases List.pairwise_cons.mp h with ⟨hx, hxs⟩
    have hmem : ∀ y ∈ sortBy valLt xs, y ∈ xs :=
      fun y hy => (sortBy_perm valLt xs).mem_iff.mp hy
    refine insertBy_pairwise (ih hxs) ?_ ?_ ?_
    · intro y _ hr
      exact Or.inl hr
    · intro y hy hr
      rcases lt_or_eq_of_le (le_of_not_lt hr) with hlt | heq
      · exact Or.inl hlt
      · exact Or.inr ⟨heq, (hx y (hmem y hy)).le⟩
    · intro y hy z hz hr hyz
      have hxz : x.2 ≤ z.2 := (le_of_not_lt hr).trans (lexLe_val_le hyz)
      rcases lt_or_eq_of_le hxz with hlt | heq
      · exact Or.inl hlt
      · exact Or.inr ⟨heq, (hx z (hmem z hz)).le⟩

/-! ### Theorems — group table shape -/

theorem groupMeansBy_fst (key : FlightRecord → String) (rs : List FlightRecord) :
    (groupMeansBy key rs).map Prod.fst =
      sortBy (fun a b : String => a < b) (rs.map key).dedup := by
  rw [groupMeansBy, List.map_map]
  exact List.map_id _

theorem groupMeansBy_nodup (key : FlightRecord → String) (rs : List FlightRecord) :
    ((groupMeansBy key rs).map Prod.fst).Nodup := by
  rw [groupMeansBy_fst]
  exact (sortBy_perm _ _).symm.nodup (List.nodup_dedup _)

theorem groupMeansBy_mem (key : FlightRecord → String) (rs : List FlightRecord)
    (k : String) :
    k ∈ (groupMeansBy key rs).map Prod.fst ↔ k ∈ rs.map key := by
  rw [groupMeansBy_fst]
  exact (sortBy_perm _ _).mem_iff.trans List.mem_dedup

theorem groupMeansBy_pairwise_lt (key : FlightRecord → String) (rs : List FlightRecord) :
    (groupMeansBy key rs).Pairwise (fun a b => a.1 < b.1) := by
  have hle : ((groupMeansBy key rs).map Prod.fst).Pairwise (· ≤ ·) := by
    rw [groupMeansBy_fst]; exact sortStr_sorted _
  have hne : ((groupMeansBy key rs).map Prod.fst).Pairwise (· ≠ ·) :=
    groupMeansBy_nodup key rs
  have hlt : ((groupMeansBy key rs).map Prod.fst).Pairwise (· < ·) :=
    (pairwise_and hle hne).imp (fun h => lt_of_le_of_ne h.1 h.2)
  exact (List.pairwise_map.mp hlt)

theorem round2_mono {a b : ℚ} (h : a ≤ b) : round2 a ≤ round2 b := by
  unfold round2
  have h1 : round (a * 100) ≤ round (b * 100) := by
    rw [round_eq, round_eq]
    exact Int.floor_le_floor (by linarith)
  have h2 : ((round (a * 100) : ℤ) : ℚ) ≤ ((round (b * 100) : ℤ) : ℚ) :=
    Int.cast_le.mpr h1
  exact (div_le_div_iff_of_pos_right (by norm_num)).mpr h2

/-! ### Theorems — first-occurrence dedup -/

theorem firstDedup_mem : ∀ (l : List String) (a : String),
    a ∈ firstDedup l ↔ a ∈ l := by
  intro l
  induction l with
  | nil => intro a; simp [firstDedup]
  | cons x xs ih =>
    intro a
    by_cases hax : a = x
    · subst hax; simp [firstDedup]
    · simp [firstDedup, List.mem_filter, hax, ih]

theorem firstDedup_nodup : ∀ l : List String, (firstDedup l).Nodup := by
  intro l
  induction l with
  | nil => simp [firstDedup]
  | cons x xs ih =>
    rw [firstDedup]
    refine List.nodup_cons.mpr ⟨?_, ih.filter _⟩
    intro hx
    have hne : x ≠ x := by simpa using (List.mem_filter.mp hx).2
    exact hne rfl

/-! ### Theorems — claims C1, C2, C3 (route and trend aggregation) -/

theorem groupMeans_alpha_perm_first (rs : List FlightRecord) :
    (groupMeansBy FlightRecord.origin rs).Perm (groupMeansFirst rs) := by
  have hkeys : (sortBy (fun a b : String => a < b) (rs.map FlightRecord.origin).dedup).Perm
      (firstDedup (rs.map FlightRecord.origin)) := by
    refine (List.perm_ext_iff_of_nodup
      ((sortBy_perm _ _).symm.nodup (List.nodup_dedup _)) (firstDedup_nodup _)).mpr ?_
    intro a
    rw [(sortBy_perm _ _).mem_iff, List.mem_dedup, firstDedup_mem]
  exact hkeys.map _

theorem popular_routes_eq_amended (rs : List FlightRecord) :
    popular_routes rs = routeAgg_amendedC1 rs := by
  have hperm : (sortBy valLt (groupMeansBy FlightRecord.origin rs)).Perm
      (sortBy lexLt (groupMeansFirst rs)) :=
    ((sortBy_perm valLt _).trans (groupMeans_alpha_perm_first rs)).trans
      (sortBy_perm lexLt _).symm
  have hs1 : (sortBy valLt (groupMeansBy FlightRecord.origin rs)).Pairwise lexLe :=
    sortVal_pairwise_lexLe _ (groupMeansBy_pairwise_lt _ _)
  have hs2 : (sortBy lexLt (groupMeansFirst rs)).Pairwise lexLe :=
    sortLex_sorted _
  have heq : sortBy valLt (groupMeansBy FlightRecord.origin rs) =
      sortBy lexLt (groupMeansFirst rs) :=
    List.eq_of_perm_of_sorted hperm hs1 hs2
  unfold popular_routes routeAgg_amendedC1
  rw [heq]

/-- C1, counterexample: on two equal-mean origins inserted as "B" then "A",
the aggregation described by the claim (stable sort preserving insertion
order for ties) yields B before A, but the code (whose groupby sorts the
group keys alphabetically before the value sort) yields A before B. -/
theorem C1_counterexample : routeAgg_specC1 c1Input ≠ popular_routes c1Input := by
  have e1 : routeAgg_specC1 c1Input = [("B", 100), ("A", 100)] := by
    simp [routeAgg_specC1, groupMeansFirst, firstDedup, sortBy, insertBy,
      meanOf, round2, valLt, mkRecord, c1Input]
    norm_num [round_eq]
  have e2 : popular_routes c1Input = [("A", 100), ("B", 100)] := by
    have h1 : (['A'] : List Char) < ['B'] := by decide
    simp [popular_routes, groupMeansBy, sortBy, insertBy, meanOf, round2,
      valLt, mkRecord, c1Input, h1]
    norm_num [round_eq]
  rw [e1, e2]
  intro h
  simp at h

/-- C1 (amended): route aggregation groups records by origin, computes the
arithmetic mean of price per group, sorts ascending by the unrounded mean —
ties between equal means broken by ascending origin code (a consequence of
the groupby sorting its keys), not by insertion order — and then rounds each
mean to 2 decimal places; three MEL records with prices 100, 200, 300 yield
exactly the mapping MEL ↦ 200.0. -/
theorem C1_route_agg_amended :
    (∀ rs : List FlightRecord, popular_routes rs = routeAgg_amendedC1 rs) ∧
    popular_routes melRecords = [("MEL", 200)] := by
  constructor
  · exact popular_routes_eq_amended
  · simp [popular_routes, groupMeansBy, sortBy, insertBy, meanOf, round2,
      valLt, mkRecord, melRecords]
    norm_num [round_eq]

/-- C2: for every non-empty set of normalized records, route aggregation's
output is sorted ascending by average price, and its origin column contains
every origin of the input exactly once and nothing else (it is a
permutation of the deduplicated input origins). -/
theorem C2_route_sorted_complete (rs : List FlightRecord) (_hne : rs ≠ []) :
    ((popular_routes rs).map Prod.snd).Pairwise (· ≤ ·) ∧
    ((popular_routes rs).map Prod.fst).Nodup ∧
    ((popular_routes rs).map Prod.fst).Perm (rs.map FlightRecord.origin).dedup := by
  refine ⟨?_, ?_, ?_⟩
  · unfold popular_routes
    rw [List.map_map]
    exact List.pairwise_map.mpr
      ((sortVal_sorted (groupMeansBy FlightRecord.origin rs)).imp
        (fun hab => round2_mono hab))
  · unfold popular_routes
    rw [List.map_map]
    show ((sortBy valLt (groupMeansBy FlightRecord.origin rs)).map Prod.fst).Nodup
    exact ((sortBy_perm valLt _).map Prod.fst).symm.nodup
      (groupMeansBy_nodup FlightRecord.origin rs)
  · unfold popular_routes
    rw [List.map_map]
    show ((sortBy valLt (groupMeansBy FlightRecord.origin rs)).map Prod.fst).Perm
      (rs.map FlightRecord.origin).dedup
    refine ((sortBy_perm valLt _).map Prod.fst).trans ?_
    rw [groupMeansBy_fst]
    exact sortBy_perm _ _

/-- C2, witness at the three-record MEL input. -/
theorem C2_witness :
    melRecords ≠ [] ∧
    (((popular_routes melRecords).map Prod.snd).Pairwise (· ≤ ·) ∧
     ((popular_routes melRecords).map Prod.fst).Nodup ∧
     ((popular_routes melRecords).map Prod.fst).Perm
       (melRecords.map FlightRecord.origin).dedup) :=
  ⟨by decide, C2_route_sorted_complete melRecords (by decide)⟩

theorem lookup_map_key (f : String → ℚ) :
    ∀ (keys : List String) (d : String), d ∈ keys →
      (keys.map (fun k => (k, f k))).lookup d = some (f d) := by
  intro keys
  induction keys with
  | nil => intro d hd; cases hd
  | cons k ks ih =>
    intro d hd
    by_cases hdk : d = k
    · subst hdk; simp [List.lookup]
    · rcases List.mem_cons.mp hd with h | h
      · exact absurd h hdk
      · have hbeq : (d == k) = false := beq_eq_false_iff_ne.mpr hdk
        simp only [List.map_cons, List.lookup, hbeq]
        exact ih d h

theorem price_trend_agg_eq (rs : List FlightRecord) :
    price_trend_agg rs =
      (sortBy (fun a b : String => a < b) (rs.map FlightRecord.departure_date).dedup).map
        (fun k => (k, round2 (meanOf ((rs.filter
          (fun r => r.departure_date = k)).map FlightRecord.price)))) := by
  unfold price_trend_agg groupMeansBy
  rw [List.map_map]
  rfl

/-- C3: for every input to trend aggregation, the output has at most one
entry per calendar date (its date column is duplicate-free), the dates are
sorted strictly ascending as strings, the entry of every input date is the
arithmetic mean of that date's prices rounded to 2 decimals (so same-date
records are merged by averaging), and no other dates appear. -/
theorem C3_trend_agg (rs : List FlightRecord) :
    ((price_trend_agg rs).map Prod.fst).Nodup ∧
    ((price_trend_agg rs).map Prod.fst).Pairwise (· < ·) ∧
    (∀ d, d ∈ rs.map FlightRecord.departure_date →
      (price_trend_agg rs).lookup d =
        some (round2 (meanOf ((rs.filter
          (fun r => r.departure_date = d)).map FlightRecord.price)))) ∧
    (∀ d, d ∈ (price_trend_agg rs).map Prod.fst →
      d ∈ rs.map FlightRecord.departure_date) := by
  refine ⟨?_, ?_, ?_, ?_⟩
  · unfold price_trend_agg
    rw [List.map_map]
    show ((groupMeansBy FlightRecord.departure_date rs).map Prod.fst).Nodup
    exact groupMeansBy_nodup _ _
  · unfold price_trend_agg
    rw [List.map_map]
    show ((groupMeansBy FlightRecord.departure_date rs).map Prod.fst).Pairwise (· < ·)
    exact List.pairwise_map.mpr (groupMeansBy_pairwise_lt _ _)
  · intro d hd
    rw [price_trend_agg_eq]
    refine lookup_map_key _ _ _ ?_
    exact (sortBy_perm _ _).mem_iff.mpr (List.mem_dedup.mpr hd)
  · intro d hd
    unfold price_trend_agg at hd
    rw [List.map_map] at hd
    have : d ∈ (groupMeansBy FlightRecord.departure_date rs).map Prod.fst := hd
    exact (groupMeansBy_mem _ _ _).mp this

/-- C3, witness: two records on the same date are merged into one averaged
entry. -/
theorem C3_witness :
    ((price_trend_agg c3Input).map Prod.fst).Nodup ∧
    (price_trend_agg c3Input).lookup "2025-10-14" =
      some (round2 (meanOf ((c3Input.filter
        (fun r => r.departure_date = "2025-10-14")).map FlightRecord.price))) :=
  ⟨(C3_trend_agg c3Input).1,
   (C3_trend_agg c3Input).2.2.1 "2025-10-14" (by decide)⟩

/-! ### Theorems — claim C5 (offer normalizer) -/

theorem processOffer_wf {o : RawOffer} (horg hdst : String)
    (h : wellFormedOffer o = true) :
    ∃ r, processOffer o horg hdst = some r ∧ r.price = o.price_total ∧
      isIsoDate r.departure_date.data = true ∧
      (∀ c ∈ r.departure_date.data, c ≠ 'T') := by
  unfold wellFormedOffer at h
  cases hA : o.validatingAirlineCodes with
  | nil => rw [hA] at h; simp at h
  | cons a as =>
    cases hI : o.itineraries with
    | nil => rw [hI] at h; simp at h
    | cons itin itins =>
      rw [hA, hI] at h
      simp only [List.isEmpty_cons, Bool.not_false, Bool.true_and,
        List.head?_cons] at h
      cases hS : itin.segments with
      | nil => rw [hS] at h; simp at h
      | cons seg segs =>
        rw [hS] at h
        simp only [List.head?_cons] at h
        refine ⟨{ origin := horg, destination := hdst, price := o.price_total,
                  airline := a, departure_date :=
                    ⟨seg.departure_at.data.takeWhile (fun c => c ≠ 'T')⟩ },
          by simp [processOffer, hA, hI, hS], rfl, h, ?_⟩
        intro c hc
        have := List.mem_takeWhile_imp hc
        simpa using this

theorem process_flight_data_wf :
    ∀ (offers : List RawOffer) (org dst : String) (recs : List FlightRecord),
    (∀ o ∈ offers, wellFormedOffer o = true) →
    process_flight_data offers org dst = some recs →
    ∀ r ∈ recs, (∃ o ∈ offers, r.price = o.price_total) ∧
      isIsoDate r.departure_date.data = true ∧
      (∀ c ∈ r.departure_date.data, c ≠ 'T') := by
  intro offers
  induction offers with
  | nil =>
    intro org dst recs _ hp r hr
    simp only [process_flight_data, Option.some.injEq] at hp
    subst hp
    cases hr
  | cons o os ih =>
    intro org dst recs hwf hp r hr
    rcases processOffer_wf org dst (hwf o (List.mem_cons_self o os)) with
      ⟨r0, hr0, hprice, hiso, hnoT⟩
    rw [process_flight_data, hr0] at hp
    cases hrest : process_flight_data os org dst with
    | none => rw [hrest] at hp; simp at hp
    | some rest =>
      rw [hrest] at hp
      simp at hp
      subst hp
      rcases List.mem_cons.mp hr with hr | hr
      · subst hr
        exact ⟨⟨o, List.mem_cons_self o os, hprice⟩, hiso, hnoT⟩
      · have := ih org dst rest
          (fun o2 ho2 => hwf o2 (List.mem_cons_of_mem o ho2)) hrest r hr
        exact ⟨⟨this.1.choose, List.mem_cons_of_mem o this.1.choose_spec.1,
          this.1.choose_spec.2⟩, this.2⟩

/-- C5 (amended): on a well-formed raw offer list whose raw totals are all
non-negative, every normalized record has a non-negative price (the price
is copied from some offer's raw total, which the code does not clamp or
validate) and a departure date in ISO calendar-date shape with no time
component (no `'T'` separator remains). -/
theorem C5_normalizer_amended (offers : List RawOffer) (org dst : String)
    (recs : List FlightRecord)
    (hwf : ∀ o ∈ offers, wellFormedOffer o = true)
    (hpos : ∀ o ∈ offers, 0 ≤ o.price_total)
    (hp : process_flight_data offers org dst = some recs) :
    ∀ r ∈ recs, 0 ≤ r.price ∧ isIsoDate r.departure_date.data = true ∧
      (∀ c ∈ r.departure_date.data, c ≠ 'T') := by
  intro r hr
  rcases process_flight_data_wf offers org dst recs hwf hp r hr with
    ⟨⟨o, ho, hpr⟩, hiso, hnoT⟩
  exact ⟨hpr ▸ hpos o ho, hiso, hnoT⟩

/-- C5, witness for the amended statement: a well-formed offer with a
non-negative total yields a record with non-negative price and a pure ISO
departure date. -/
theorem C5_witness :
    (∀ o ∈ [c5GoodOffer], wellFormedOffer o = true) ∧
    (∀ r ∈ [mkRecord "MEL" "SYD" 199 "2025-10-14"],
      0 ≤ r.price ∧ isIsoDate r.departure_date.data = true ∧
      (∀ c ∈ r.departure_date.data, c ≠ 'T')) := by
  constructor
  · decide
  · exact C5_normalizer_amended [c5GoodOffer] "MEL" "SYD" _ (by decide)
      (by intro o ho; simp only [List.mem_singleton] at ho; subst ho; norm_num [c5GoodOffer])
      (by rfl)

/-- C5, counterexample: the normalizer performs no sign check, so a
shape-wise well-formed offer carrying a negative raw total produces a
normalized record with a negative price, contradicting the unconditional
non-negativity invariant. -/
theorem C5_counterexample :
    wellFormedOffer c5Offer = true ∧
    process_flight_data [c5Offer] "MEL" "SYD" =
      some [{ origin := "MEL", destination := "SYD", price := -50,
              airline := "QF", departure_date := "2025-10-14" }] ∧
    ¬ (0 ≤ (-50 : ℚ)) := by
  refine ⟨by decide, by rfl, by norm_num⟩

/-! ### Theorems — claims C6 and C9 (insight generator) -/

/-- C6: when the text-generation credential is absent (unset, empty or the
placeholder), `get_ai_insights` returns exactly the fixed "not configured"
paragraph and performs zero calls to the text-generation capability,
whatever the aggregation table and whatever the capability would have
answered. -/
theorem C6_insights_not_configured (key : Option String)
    (df : List (String × ℚ)) (gen : GenOutcome)
    (h : geminiKeyMissing key = true) :
    get_ai_insights key df gen =
      ("<p>Gemini API key not configured. Insights are unavailable.</p>", 0) := by
  simp [get_ai_insights, h]

/-- C6, witness: unset key, non-empty table, a capability that would have
answered. -/
theorem C6_witness :
    geminiKeyMissing none = true ∧
    get_ai_insights none [("MEL", 200)] (.ok "text") =
      ("<p>Gemini API key not configured. Insights are unavailable.</p>", 0) :=
  ⟨by decide, C6_insights_not_configured none [("MEL", 200)] (.ok "text") (by decide)⟩

/-- C9: the missing-credential check precedes the empty-table check — with
the credential absent and an empty aggregation table the result is the
"not configured" paragraph, which is not the "no data" paragraph. -/
theorem C9_key_check_first (key : Option String) (gen : GenOutcome)
    (h : geminiKeyMissing key = true) :
    (get_ai_insights key [] gen).1 =
      "<p>Gemini API key not configured. Insights are unavailable.</p>" ∧
    (get_ai_insights key [] gen).1 ≠
      "<p>No flight data was available to generate insights.</p>" := by
  refine ⟨by simp [get_ai_insights, h], ?_⟩
  have he : (get_ai_insights key [] gen).1 =
      "<p>Gemini API key not configured. Insights are unavailable.</p>" := by
    simp [get_ai_insights, h]
  rw [he]
  decide

/-- C9, witness: placeholder key and empty table. -/
theorem C9_witness :
    geminiKeyMissing (some "YOUR_GEMINI_API_KEY") = true ∧
    ((get_ai_insights (some "YOUR_GEMINI_API_KEY") [] .blocked).1 =
      "<p>Gemini API key not configured. Insights are unavailable.</p>" ∧
     (get_ai_insights (some "YOUR_GEMINI_API_KEY") [] .blocked).1 ≠
      "<p>No flight data was available to generate insights.</p>") :=
  ⟨by decide, C9_key_check_first (some "YOUR_GEMINI_API_KEY") .blocked (by decide)⟩

/-! ### Theorems — claims C7 and C8 (the API route) -/


theorem trendStep_empty (o d : String) (fetch : Nat → List RawOffer)
    (acc : List FlightRecord × Nat) (i : Nat) (h : fetch i = []) :
    trendStep o d fetch acc i = some (acc.1, acc.2 + 1) := by
  simp [trendStep, h]

theorem trendLoop_all_empty (o d : String) (fetch : Nat → List RawOffer)
    (hf : ∀ i, fetch i = []) : trendLoop o d fetch = some ([], 30) := by
  have hgen : ∀ (l : List Nat) (acc : List FlightRecord × Nat),
      List.foldlM (trendStep o d fetch) acc l = some (acc.1, acc.2 + l.length) := by
    intro l
    induction l with
    | nil => intro acc; simp
    | cons i is ihl =>
      intro acc
      rw [List.foldlM_cons, trendStep_empty o d fetch acc i (hf i)]
      rw [show (do
          let init ← some (acc.1, acc.2 + 1)
          List.foldlM (trendStep o d fetch) init is) =
        List.foldlM (trendStep o d fetch) (acc.1, acc.2 + 1) is from rfl]
      rw [ihl (acc.1, acc.2 + 1)]
      simp only [List.length_cons]
      congr 2
      omega
  unfold trendLoop
  rw [hgen (List.range' 1 30) ([], 0)]
  simp

/-- C7: with both parameters supplied (non-empty) and a provider returning
no offers on any of the 30 queried dates, the API route answers the exact
"no trend data" structure — empty labels, empty data, the literal title
with the raw codes — with one token exchange, 30 fetches, and no error
response. -/
theorem C7_trend_no_data (o d t : String) (fetch : Nat → List RawOffer)
    (ho : o ≠ "") (hd : d ≠ "") (hf : ∀ i, fetch i = []) :
    api_price_trend (some o) (some d) (some t) fetch =
      some (.trendResp [] [] ("No Trend Data for " ++ o ++ " to " ++ d), 1, 30) := by
  have h1 : pyFalsy (some o) = false := by simp [pyFalsy, ho]
  have h2 : pyFalsy (some d) = false := by simp [pyFalsy, hd]
  unfold api_price_trend
  simp only [h1, h2, Bool.false_eq_true, or_self, if_false, Option.getD_some]
  rw [trendLoop_all_empty o d fetch hf]
  simp

/-- C7, witness: SYD→MEL with an offerless provider. -/
theorem C7_witness :
    ("SYD" : String) ≠ "" ∧ ("MEL" : String) ≠ "" ∧
    api_price_trend (some "SYD") (some "MEL") (some "token") (fun _ => []) =
      some (.trendResp [] [] ("No Trend Data for " ++ "SYD" ++ " to " ++ "MEL"), 1, 30) :=
  ⟨by decide, by decide,
   C7_trend_no_data "SYD" "MEL" "token" (fun _ => []) (by decide) (by decide)
     (fun _ => rfl)⟩

/-- C8: if the origin or the destination parameter is missing (absent or
empty), the API route answers HTTP 400 with an error body, having performed
no token exchange and no fetch. -/
theorem C8_missing_params (origin destination : Option String)
    (token : Option String) (fetch : Nat → List RawOffer)
    (h : pyFalsy origin = true ∨ pyFalsy destination = true) :
    api_price_trend origin destination token fetch =
      some (.errorResp 400 "Missing origin or destination parameters", 0, 0) := by
  unfold api_price_trend
  rcases h with h | h <;> simp [h]

/-- C8, witness: origin omitted entirely. -/
theorem C8_witness :
    (pyFalsy none = true ∨ pyFalsy (some "MEL") = true) ∧
    api_price_trend none (some "MEL") (some "token") (fun _ => []) =
      some (.errorResp 400 "Missing origin or destination parameters", 0, 0) :=
  ⟨Or.inl (by decide),
   C8_missing_params none (some "MEL") (some "token") (fun _ => [])
     (Or.inl (by decide))⟩

theorem snapStep_empty (dst : String) (acc : List FlightRecord) (o : String) :
    snapStep dst (fun _ => []) acc o = some acc := by
  simp [snapStep, process_flight_data]

theorem snapshotLoop_all_empty (origins : List String) (dst : String) :
    snapshotLoop origins dst (fun _ => []) = some [] := by
  have hgen : ∀ (l : List String) (acc : List FlightRecord),
      List.foldlM (snapStep dst (fun _ => [])) acc l = some acc := by
    intro l
    induction l with
    | nil => intro acc; simp
    | cons o os ihl =>
      intro acc
      rw [List.foldlM_cons, snapStep_empty dst acc o]
      rw [show (do
          let init ← some acc
          List.foldlM (snapStep dst (fun _ => [])) init os) =
        List.foldlM (snapStep dst (fun _ => [])) acc os from rfl]
      exact ihl acc
  exact hgen origins []

/-- C10: the page route validates nothing about the destination form value —
for any destination string that is not a configured city code the computed
origin set is all 7 configured cities, and the request is processed
normally (here: a rendered page with the default "no data" summary when the
provider returns nothing), never a client-error response. -/
theorem C10_no_destination_validation (dest : String)
    (hdest : dest ∉ CITIES.map Prod.fst) :
    origin_cities dest = CITIES.map Prod.fst ∧
    (∀ (t : String) (gk : Option String) (gen : GenOutcome),
      index (some dest) (some t) (fun _ => []) (fun _ => []) gk gen =
        some (.page
          { cities := CITIES, selected_destination := dest,
            price_trends := none, popular_routes_chart := none,
            ai_summary := "No data found for the selected destination. This may be due to the route having no availability in the next month or an API error.",
            trend_chart_title := "Daily Price Trend (Next Month)" })) := by
  have horig : origin_cities dest = CITIES.map Prod.fst := by
    unfold origin_cities
    refine List.filter_eq_self.mpr ?_
    intro a ha
    exact decide_eq_true (fun had => hdest (had ▸ ha))
  refine ⟨horig, ?_⟩
  intro t gk gen
  unfold index
  simp only [Option.getD_some, horig]
  rw [snapshotLoop_all_empty]
  simp only [show (List.map Prod.fst CITIES).head? = some "SYD" from rfl]
  rw [trendLoop_all_empty "SYD" dest _ (fun _ => rfl)]
  simp [CITIES]

/-- C10, witness: an unknown three-letter code. -/
theorem C10_witness :
    ("XXX" : String) ∉ CITIES.map Prod.fst ∧
    origin_cities "XXX" = CITIES.map Prod.fst ∧
    index (some "XXX") (some "token") (fun _ => []) (fun _ => []) none .blocked =
      some (.page
        { cities := CITIES, selected_destination := "XXX",
          price_trends := none, popular_routes_chart := none,
          ai_summary := "No data found for the selected destination. This may be due to the route having no availability in the next month or an API error.",
          trend_chart_title := "Daily Price Trend (Next Month)" }) := by
  have h := C10_no_destination_validation "XXX" (by decide)
  exact ⟨by decide, h.1, h.2 "token" none .blocked⟩

/-! ### Theorems — claim C4: whitespace and stripping -/

theorem dropTrail_cons (c : Char) (l : List Char) :
    dropTrail (c :: l) = match dropTrail l with
      | [] => if isSpace c then [] else [c]
      | r => c :: r := rfl

theorem isSpace_ne_star {c : Char} (h : isSpace c = true) : c ≠ '*' := by
  simp [isSpace] at h
  rcases h with rfl | rfl | rfl | rfl | rfl | rfl <;> decide

theorem dropTrail_eq_nil :
    ∀ l : List Char, dropTrail l = [] ↔ ∀ c ∈ l, isSpace c = true := by
  intro l
  induction l with
  | nil => simp [dropTrail]
  | cons c rest ih =>
    rw [dropTrail_cons]
    cases hd : dropTrail rest with
    | nil =>
      have hrest : ∀ c ∈ rest, isSpace c = true := (ih).mp hd
      by_cases hc : isSpace c = true
      · simp only [hc, if_true, List.mem_cons]
        constructor
        · intro _ x hx
          rcases hx with rfl | hx
          · exact hc
          · exact hrest x hx
        · intro _; trivial
      · simp only [hc, if_false, Bool.false_eq_true]
        constructor
        · intro h; cases h
        · intro hall
          exact absurd (hall c (List.mem_cons_self c rest)) hc
    | cons r rs =>
      have hrest : ¬ ∀ c ∈ rest, isSpace c = true := by
        intro hall
        rw [ih.mpr hall] at hd
        cases hd
      simp only [List.mem_cons]
      constructor
      · intro h; cases h
      · intro hall
        exact absurd (fun c hc => hall c (Or.inr hc)) hrest

theorem dropTrail_sublist : ∀ l : List Char, (dropTrail l).Sublist l := by
  intro l
  induction l with
  | nil => simp [dropTrail]
  | cons c rest ih =>
    rw [dropTrail_cons]
    cases hd : dropTrail rest with
    | nil =>
      by_cases hc : isSpace c = true
      · simp [hc]
      · simp [hc]
    | cons r rs =>
      rw [hd] at ih
      exact ih.cons₂ c

theorem dropTrail_decomp :
    ∀ l : List Char, ∃ w, l = dropTrail l ++ w ∧ ∀ c ∈ w, isSpace c = true := by
  intro l
  induction l with
  | nil => exact ⟨[], rfl, by simp⟩
  | cons c rest ih =>
    rcases ih with ⟨w, hw, hsp⟩
    rw [dropTrail_cons]
    cases hd : dropTrail rest with
    | nil =>
      rw [hd] at hw
      simp only [List.nil_append] at hw
      by_cases hc : isSpace c = true
      · refine ⟨c :: rest, by simp [hc], ?_⟩
        intro x hx
        rcases List.mem_cons.mp hx with rfl | hx
        · exact hc
        · exact hsp x (hw ▸ hx)
      · exact ⟨w, by simp [hc, hw], hsp⟩
    | cons r rs =>
      rw [hd] at hw
      exact ⟨w, by simpa using hw, hsp⟩

theorem dropTrail_cons_of_ne (c : Char) (l : List Char) (h : dropTrail l ≠ []) :
    dropTrail (c :: l) = c :: dropTrail l := by
  rw [dropTrail_cons]
  cases hd : dropTrail l with
  | nil => exact absurd hd h
  | cons r rs => rfl

theorem dropTrail_idem : ∀ l : List Char, dropTrail (dropTrail l) = dropTrail l := by
  intro l
  induction l with
  | nil => simp [dropTrail]
  | cons c rest ih =>
    rw [dropTrail_cons]
    cases hd : dropTrail rest with
    | nil =>
      by_cases hc : isSpace c = true
      · simp [hc, dropTrail]
      · simp [hc, dropTrail]
    | cons r rs =>
      rw [hd] at ih
      rw [dropTrail_cons_of_ne c (r :: rs) (by simp [ih]), ih]

theorem pyStrip_eq_nil :
    ∀ l : List Char, pyStrip l = [] ↔ ∀ c ∈ l, isSpace c = true := by
  intro l
  unfold pyStrip
  rw [List.dropWhile_eq_nil_iff]
  constructor
  · intro h c hc
    rcases dropTrail_decomp l with ⟨w, hw, hsp⟩
    rw [hw] at hc
    rcases List.mem_append.mp hc with hc | hc
    · exact h c hc
    · exact hsp c hc
  · intro h c hc
    exact h c ((dropTrail_sublist l).subset hc)

theorem pyStrip_cons_space {c : Char} (l : List Char) (h : isSpace c = true) :
    pyStrip (c :: l) = pyStrip l := by
  unfold pyStrip
  rw [dropTrail_cons]
  cases hd : dropTrail l with
  | nil => simp [h]
  | cons r rs => simp [h]

theorem dropTrail_append_space {v : List Char} (hv : ∀ c ∈ v, isSpace c = true) :
    ∀ x : List Char, dropTrail (x ++ v) = dropTrail x := by
  intro x
  induction x with
  | nil =>
    simp only [List.nil_append]
    exact (dropTrail_eq_nil v).mpr hv
  | cons c x2 ih =>
    rw [List.cons_append, dropTrail_cons, ih, dropTrail_cons]

theorem pyStrip_append_space {v : List Char} (hv : ∀ c ∈ v, isSpace c = true)
    (x : List Char) : pyStrip (x ++ v) = pyStrip x := by
  unfold pyStrip
  rw [dropTrail_append_space hv]

theorem pyStrip_space_append {u : List Char} (hu : ∀ c ∈ u, isSpace c = true) :
    ∀ x : List Char, pyStrip (u ++ x) = pyStrip x := by
  induction u with
  | nil => intro x; rfl
  | cons c u2 ih =>
    intro x
    rw [List.cons_append, pyStrip_cons_space _ (hu c (List.mem_cons_self c u2))]
    exact ih (fun d hd => hu d (List.mem_cons_of_mem c hd)) x

theorem dropWhile_isSpace_idem :
    ∀ l : List Char, List.dropWhile isSpace (List.dropWhile isSpace l) =
      List.dropWhile isSpace l := by
  intro l
  induction l with
  | nil => rfl
  | cons c rest ih =>
    by_cases hc : isSpace c = true
    · rw [List.dropWhile_cons_of_pos hc]
      exact ih
    · rw [List.dropWhile_cons_of_neg (by simpa using hc),
        List.dropWhile_cons_of_neg (by simpa using hc)]

theorem dropTrail_dropWhile :
    ∀ l : List Char, dropTrail (List.dropWhile isSpace l) =
      List.dropWhile isSpace (dropTrail l) := by
  intro l
  induction l with
  | nil => rfl
  | cons c rest ih =>
    by_cases hc : isSpace c = true
    · rw [List.dropWhile_cons_of_pos hc, ih, dropTrail_cons]
      cases hd : dropTrail rest with
      | nil => simp [hc]
      | cons r rs => rw [List.dropWhile_cons_of_pos hc]
    · rw [List.dropWhile_cons_of_neg (by simpa using hc), dropTrail_cons]
      cases hd : dropTrail rest with
      | nil =>
        rw [if_neg hc, List.dropWhile_cons_of_neg (by simpa using hc)]
      | cons r rs =>
        rw [List.dropWhile_cons_of_neg (by simpa using hc)]

theorem pyStrip_idem (l : List Char) : pyStrip (pyStrip l) = pyStrip l := by
  show pyStrip (List.dropWhile isSpace (dropTrail l)) = _
  unfold pyStrip
  rw [dropTrail_dropWhile, dropTrail_idem, dropWhile_isSpace_idem]

/-! ### Theorems — claim C4: line splitting -/

theorem splitNl_cons (c : Char) (t : List Char) :
    splitNl (c :: t) = if c = '\n' then [] :: splitNl t
      else match splitNl t with
        | l :: ls => (c :: l) :: ls
        | [] => [[c]] := rfl

theorem splitNl_ne_nil : ∀ t : List Char, splitNl t ≠ [] := by
  intro t
  induction t with
  | nil => simp [splitNl]
  | cons c t2 ih =>
    rw [splitNl_cons]
    by_cases hc : c = '\n'
    · simp [hc]
    · cases hs : splitNl t2 with
      | nil => exact absurd hs ih
      | cons l ls => simp [hc]

theorem mem_splitNl_no_nl :
    ∀ (t : List Char) (l : List Char), l ∈ splitNl t → '\n' ∉ l := by
  intro t
  induction t with
  | nil =>
    intro l hl
    simp [splitNl] at hl
    simp [hl]
  | cons c t2 ih =>
    intro l hl
    rw [splitNl_cons] at hl
    by_cases hc : c = '\n'
    · rw [if_pos hc] at hl
      rcases List.mem_cons.mp hl with rfl | hl
      · simp
      · exact ih l hl
    · rw [if_neg hc] at hl
      cases hs : splitNl t2 with
      | nil => exact absurd hs (splitNl_ne_nil t2)
      | cons l0 ls =>
        rw [hs] at hl
        rcases List.mem_cons.mp hl with rfl | hl
        · intro hmem
          rcases List.mem_cons.mp hmem with h | h
          · exact hc h.symm
          · exact ih l0 (hs ▸ List.mem_cons_self l0 ls) h
        · exact ih l (hs ▸ List.mem_cons_of_mem l0 hl)

theorem splitNl_no_nl : ∀ t : List Char, '\n' ∉ t → splitNl t = [t] := by
  intro t
  induction t with
  | nil => intro _; rfl
  | cons c t2 ih =>
    intro h
    have hc : c ≠ '\n' := fun hc => h (hc ▸ List.mem_cons_self c t2)
    rw [splitNl_cons, if_neg hc, ih (fun hm => h (List.mem_cons_of_mem c hm))]

theorem splitNl_append_nl :
    ∀ (a : List Char), '\n' ∉ a → ∀ b, splitNl (a ++ '\n' :: b) = a :: splitNl b := by
  intro a
  induction a with
  | nil => intro _ b; simp [splitNl_cons]
  | cons c a2 ih =>
    intro h b
    have hc : c ≠ '\n' := fun hc => h (hc ▸ List.mem_cons_self c a2)
    rw [List.cons_append, splitNl_cons, if_neg hc,
      ih (fun hm => h (List.mem_cons_of_mem c hm)) b]

theorem exists_first_nl :
    ∀ t : List Char, '\n' ∈ t → ∃ a b, t = a ++ '\n' :: b ∧ '\n' ∉ a := by
  intro t
  induction t with
  | nil => intro h; cases h
  | cons c t2 ih =>
    intro h
    by_cases hc : c = '\n'
    · exact ⟨[], t2, by rw [hc]; rfl, by simp⟩
    · have : '\n' ∈ t2 := by
        rcases List.mem_cons.mp h with h | h
        · exact absurd h.symm hc
        · exact h
      rcases ih this with ⟨a, b, hab, hna⟩
      refine ⟨c :: a, b, by rw [hab]; rfl, ?_⟩
      intro hm
      rcases List.mem_cons.mp hm with h | h
      · exact hc h.symm
      · exact hna h

theorem stripFilter_cons (l : List Char) (ls : List (List Char)) :
    stripFilter (l :: ls) = if pyStrip l = [] then stripFilter ls
      else pyStrip l :: stripFilter ls := by
  by_cases h : pyStrip l = []
  · simp [stripFilter, h]
  · simp [stripFilter, h]

theorem stripFilter_splitNl_space :
    ∀ (n : Nat) (w : List Char), w.length ≤ n →
      (∀ c ∈ w, isSpace c = true) → stripFilter (splitNl w) = [] := by
  intro n
  induction n with
  | zero =>
    intro w hw _
    have : w = [] := List.length_eq_zero.mp (Nat.le_zero.mp hw)
    subst this
    simp [splitNl, stripFilter, pyStrip, dropTrail]
  | succ n ih =>
    intro w hw hsp
    by_cases hnl : '\n' ∈ w
    · rcases exists_first_nl w hnl with ⟨a, b, rfl, hna⟩
      rw [splitNl_append_nl a hna b, stripFilter_cons]
      have ha : pyStrip a = [] :=
        (pyStrip_eq_nil a).mpr (fun c hc => hsp c (by simp [hc]))
      rw [if_pos ha]
      refine ih b ?_ (fun c hc => hsp c (by simp [hc]))
      have := List.length_append a ('\n' :: b) ▸ hw
      simp at this
      omega
    · rw [splitNl_no_nl w hnl, stripFilter_cons,
        if_pos ((pyStrip_eq_nil w).mpr hsp)]
      rfl

theorem stripFilter_splitNl_append_space :
    ∀ (n : Nat) (u : List Char), u.length ≤ n →
      ∀ w, (∀ c ∈ w, isSpace c = true) →
      stripFilter (splitNl (u ++ w)) = stripFilter (splitNl u) := by
  intro n
  induction n with
  | zero =>
    intro u hu w hsp
    have : u = [] := List.length_eq_zero.mp (Nat.le_zero.mp hu)
    subst this
    rw [List.nil_append, stripFilter_splitNl_space w.length w le_rfl hsp]
    rfl
  | succ n ih =>
    intro u hu w hsp
    by_cases hnl : '\n' ∈ u
    · rcases exists_first_nl u hnl with ⟨a, b, rfl, hna⟩
      rw [List.append_assoc, List.cons_append, splitNl_append_nl a hna,
        splitNl_append_nl a hna, stripFilter_cons, stripFilter_cons]
      have hb : stripFilter (splitNl (b ++ w)) = stripFilter (splitNl b) := by
        refine ih b ?_ w hsp
        have := List.length_append a ('\n' :: b) ▸ hu
        simp at this
        omega
      rw [hb]
    · by_cases hnw : '\n' ∈ w
      · rcases exists_first_nl w hnw with ⟨a, b, rfl, hna⟩
        have huanl : '\n' ∉ u ++ a := by
          intro hm
          rcases List.mem_append.mp hm with hm | hm
          · exact hnl hm
          · exact hna hm
        rw [show u ++ (a ++ '\n' :: b) = (u ++ a) ++ '\n' :: b by
          rw [List.append_assoc]]
        rw [splitNl_append_nl (u ++ a) huanl b, stripFilter_cons,
          splitNl_no_nl u hnl, stripFilter_cons]
        have hstrip : pyStrip (u ++ a) = pyStrip u :=
          pyStrip_append_space (fun c hc => hsp c (by simp [hc])) u
        have hb : stripFilter (splitNl b) = [] :=
          stripFilter_splitNl_space b.length b le_rfl
            (fun c hc => hsp c (by simp [hc]))
        rw [hstrip, hb]
        by_cases hpu : pyStrip u = [] <;> simp [hpu, stripFilter]
      · have huw : '\n' ∉ u ++ w := by
          intro hm
          rcases List.mem_append.mp hm with hm | hm
          · exact hnl hm
          · exact hnw hm
        rw [splitNl_no_nl (u ++ w) huw, splitNl_no_nl u hnl,
          stripFilter_cons, stripFilter_cons,
          pyStrip_append_space hsp u]

theorem stripFilter_splitNl_cons_space {c : Char} (t : List Char)
    (hc : isSpace c = true) :
    stripFilter (splitNl (c :: t)) = stripFilter (splitNl t) := by
  by_cases hcn : c = '\n'
  · rw [splitNl_cons, if_pos hcn, stripFilter_cons]
    simp [pyStrip, dropTrail]
  · rw [splitNl_cons, if_neg hcn]
    cases hs : splitNl t with
    | nil => exact absurd hs (splitNl_ne_nil t)
    | cons l ls =>
      rw [stripFilter_cons, stripFilter_cons, pyStrip_cons_space l hc]

theorem stripFilter_splitNl_dropWhile :
    ∀ t : List Char,
      stripFilter (splitNl (List.dropWhile isSpace t)) =
        stripFilter (splitNl t) := by
  intro t
  induction t with
  | nil => rfl
  | cons c t2 ih =>
    by_cases hc : isSpace c = true
    · rw [List.dropWhile_cons_of_pos hc, ih,
        stripFilter_splitNl_cons_space t2 hc]
    · rw [List.dropWhile_cons_of_neg (by simpa using hc)]

theorem stripFilter_splitNl_pyStrip (t : List Char) :
    stripFilter (splitNl (pyStrip t)) = stripFilter (splitNl t) := by
  unfold pyStrip
  rw [stripFilter_splitNl_dropWhile (dropTrail t)]
  rcases dropTrail_decomp t with ⟨w, hw, hsp⟩
  calc stripFilter (splitNl (dropTrail t))
      = stripFilter (splitNl (dropTrail t ++ w)) :=
        (stripFilter_splitNl_append_space (dropTrail t).length
          (dropTrail t) le_rfl w hsp).symm
    _ = stripFilter (splitNl t) := by rw [← hw]

/-! ### Theorems — claim C4: the bold-substitution scanner -/

theorem boldRun_two_none (c1 c2 : Char) (rest : List Char) :
    boldRun (c1 :: c2 :: rest) none =
      if c1 = '*' ∧ c2 = '*' then boldRun rest (some [])
      else c1 :: boldRun (c2 :: rest) none := rfl

theorem boldRun_two_some (c1 c2 : Char) (rest buf : List Char) :
    boldRun (c1 :: c2 :: rest) (some buf) =
      if c1 = '*' ∧ c2 = '*' then
        "<strong>".data ++ buf.reverse ++ "</strong>".data ++ boldRun rest none
      else if c1 = '\n' then
        ('*' :: '*' :: buf.reverse) ++ '\n' :: boldRun (c2 :: rest) none
      else boldRun (c2 :: rest) (some (c1 :: buf)) := rfl

theorem boldRun_one_some (c : Char) (buf : List Char) :
    boldRun [c] (some buf) =
      if c = '\n' then ('*' :: '*' :: buf.reverse) ++ ['\n']
      else '*' :: '*' :: (c :: buf).reverse := rfl

theorem boldRun_cons_nonstar {c : Char} (hc : c ≠ '*') :
    ∀ l, boldRun (c :: l) none = c :: boldRun l none := by
  intro l
  cases l with
  | nil => rfl
  | cons c2 l2 => rw [boldRun_two_none, if_neg (fun h => hc h.1)]

theorem boldRun_nl_head :
    ∀ (ys : List Char) (st : Option (List Char)),
      boldRun ('\n' :: ys) st = boldRun [] st ++ '\n' :: boldRun ys none := by
  intro ys st
  cases ys with
  | nil =>
    cases st with
    | none => rfl
    | some buf => rw [boldRun_one_some, if_pos rfl]; rfl
  | cons y ys2 =>
    cases st with
    | none =>
      rw [boldRun_two_none, if_neg (fun h => by cases h.1)]
      rfl
    | some buf =>
      rw [boldRun_two_some, if_neg (fun h => by cases h.1), if_pos rfl]
      rfl

theorem boldRun_split_nl :
    ∀ (n : Nat) (xs : List Char), xs.length ≤ n →
      (∀ c ∈ xs, c ≠ '\n') → ∀ (ys : List Char) (st : Option (List Char)),
      boldRun (xs ++ '\n' :: ys) st = boldRun xs st ++ '\n' :: boldRun ys none := by
  intro n
  induction n with
  | zero =>
    intro xs hlen _ ys st
    have : xs = [] := List.length_eq_zero.mp (Nat.le_zero.mp hlen)
    subst this
    exact boldRun_nl_head ys st
  | succ n ih =>
    intro xs hlen hnl ys st
    cases xs with
    | nil => exact boldRun_nl_head ys st
    | cons a tail =>
      have ha : a ≠ '\n' := hnl a (List.mem_cons_self a tail)
      cases tail with
      | nil =>
        cases st with
        | none =>
          rw [List.cons_append, List.nil_append, boldRun_two_none,
            if_neg (fun h => by cases h.2), boldRun_nl_head]
          rfl
        | some buf =>
          rw [List.cons_append, List.nil_append, boldRun_two_some,
            if_neg (fun h => by cases h.2), if_neg ha, boldRun_nl_head,
            boldRun_one_some, if_neg ha]
          rfl
      | cons b t =>
        have hlt : t.length ≤ n := by simp at hlen; omega
        have hlbt : (b :: t).length ≤ n := by simp at hlen ⊢; omega
        have hnlt : ∀ c ∈ t, c ≠ '\n' :=
          fun c hc => hnl c (List.mem_cons_of_mem a (List.mem_cons_of_mem b hc))
        have hnlbt : ∀ c ∈ b :: t, c ≠ '\n' :=
          fun c hc => hnl c (List.mem_cons_of_mem a hc)
        by_cases hpair : a = '*' ∧ b = '*'
        · cases st with
          | none =>
            rw [List.cons_append, List.cons_append, boldRun_two_none,
              if_pos hpair, boldRun_two_none, if_pos hpair]
            exact ih t hlt hnlt ys (some [])
          | some buf =>
            rw [List.cons_append, List.cons_append, boldRun_two_some,
              if_pos hpair, boldRun_two_some, if_pos hpair]
            rw [ih t hlt hnlt ys none]
            simp [List.append_assoc]
        · cases st with
          | none =>
            rw [List.cons_append, List.cons_append, boldRun_two_none,
              if_neg hpair, boldRun_two_none, if_neg hpair,
              ← List.cons_append, ih (b :: t) hlbt hnlbt ys none]
            rfl
          | some buf =>
            rw [List.cons_append, List.cons_append, boldRun_two_some,
              if_neg hpair, boldRun_two_some, if_neg hpair, if_neg ha,
              if_neg ha, ← List.cons_append,
              ih (b :: t) hlbt hnlbt ys (some (a :: buf))]

theorem boldRun_no_nl :
    ∀ (n : Nat) (xs : List Char), xs.length ≤ n →
      (∀ c ∈ xs, c ≠ '\n') →
      ('\n' ∉ boldRun xs none) ∧
      (∀ buf, '\n' ∉ buf → '\n' ∉ boldRun xs (some buf)) := by
  intro n
  induction n with
  | zero =>
    intro xs hlen _
    have : xs = [] := List.length_eq_zero.mp (Nat.le_zero.mp hlen)
    subst this
    refine ⟨by simp [boldRun], ?_⟩
    intro buf hbuf hm
    rcases List.mem_cons.mp hm with h | h
    · cases h
    · rcases List.mem_cons.mp h with h | h
      · cases h
      · exact hbuf (List.mem_reverse.mp h)
  | succ n ih =>
    intro xs hlen hnl
    cases xs with
    | nil =>
      refine ⟨by simp [boldRun], ?_⟩
      intro buf hbuf hm
      rcases List.mem_cons.mp hm with h | h
      · cases h
      · rcases List.mem_cons.mp h with h | h
        · cases h
        · exact hbuf (List.mem_reverse.mp h)
    | cons a tail =>
      have ha : a ≠ '\n' := hnl a (List.mem_cons_self a tail)
      cases tail with
      | nil =>
        refine ⟨?_, ?_⟩
        · intro hm
          rcases List.mem_singleton.mp hm with rfl
          exact ha rfl
        · intro buf hbuf hm
          rw [boldRun_one_some, if_neg ha] at hm
          rcases List.mem_cons.mp hm with h | h
          · cases h
          · rcases List.mem_cons.mp h with h | h
            · cases h
            · rw [List.reverse_cons] at h
              rcases List.mem_append.mp h with h | h
              · exact hbuf (List.mem_reverse.mp h)
              · exact ha (List.mem_singleton.mp h).symm
      | cons b t =>
        have hlt : t.length ≤ n := by simp at hlen; omega
        have hlbt : (b :: t).length ≤ n := by simp at hlen ⊢; omega
        have hnlt : ∀ c ∈ t, c ≠ '\n' :=
          fun c hc => hnl c (List.mem_cons_of_mem a (List.mem_cons_of_mem b hc))
        have hnlbt : ∀ c ∈ b :: t, c ≠ '\n' :=
          fun c hc => hnl c (List.mem_cons_of_mem a hc)
        have hstrong : '\n' ∉ "<strong>".data := by decide
        have hstrong2 : '\n' ∉ "</strong>".data := by decide
        by_cases hpair : a = '*' ∧ b = '*'
        · refine ⟨?_, ?_⟩
          · rw [boldRun_two_none, if_pos hpair]
            exact (ih t hlt hnlt).2 [] (by simp)
          · intro buf hbuf hm
            rw [boldRun_two_some, if_pos hpair] at hm
            rcases List.mem_append.mp hm with h | h
            · rcases List.mem_append.mp h with h | h
              · rcases List.mem_append.mp h with h | h
                · exact hstrong h
                · exact hbuf (List.mem_reverse.mp h)
              · exact hstrong2 h
            · exact (ih t hlt hnlt).1 h
        · refine ⟨?_, ?_⟩
          · rw [boldRun_two_none, if_neg hpair]
            intro hm
            rcases List.mem_cons.mp hm with h | h
            · exact ha h.symm
            · exact (ih (b :: t) hlbt hnlbt).1 h
          · intro buf hbuf hm
            rw [boldRun_two_some, if_neg hpair, if_neg ha] at hm
            have : '\n' ∉ (a :: buf) := by
              intro h
              rcases List.mem_cons.mp h with h | h
              · exact ha h.symm
              · exact hbuf h
            exact (ih (b :: t) hlbt hnlbt).2 (a :: buf) this hm

theorem boldRun_id_or_lt :
    ∀ (n : Nat) (xs : List Char), xs.length ≤ n →
      ((boldRun xs none = xs ∨ '<' ∈ boldRun xs none) ∧
       (∀ buf, boldRun xs (some buf) = '*' :: '*' :: buf.reverse ++ xs ∨
         '<' ∈ boldRun xs (some buf))) := by
  intro n
  induction n with
  | zero =>
    intro xs hlen
    have : xs = [] := List.length_eq_zero.mp (Nat.le_zero.mp hlen)
    subst this
    exact ⟨Or.inl rfl, fun buf => Or.inl (by simp [boldRun])⟩
  | succ n ih =>
    intro xs hlen
    cases xs with
    | nil => exact ⟨Or.inl rfl, fun buf => Or.inl (by simp [boldRun])⟩
    | cons a tail =>
      cases tail with
      | nil =>
        refine ⟨Or.inl rfl, ?_⟩
        intro buf
        rw [boldRun_one_some]
        by_cases ha : a = '\n'
        · rw [if_pos ha, ha]
          exact Or.inl (by simp)
        · rw [if_neg ha]
          exact Or.inl (by simp)
      | cons b t =>
        have hlt : t.length ≤ n := by simp at hlen; omega
        have hlbt : (b :: t).length ≤ n := by simp at hlen ⊢; omega
        by_cases hpair : a = '*' ∧ b = '*'
        · refine ⟨?_, ?_⟩
          · rw [boldRun_two_none, if_pos hpair]
            rcases (ih t hlt).2 [] with h | h
            · rw [h, hpair.1, hpair.2]
              exact Or.inl (by simp)
            · exact Or.inr h
          · intro buf
            rw [boldRun_two_some, if_pos hpair]
            refine Or.inr ?_
            refine List.mem_append.mpr (Or.inl ?_)
            refine List.mem_append.mpr (Or.inl ?_)
            refine List.mem_append.mpr (Or.inl ?_)
            decide
        · refine ⟨?_, ?_⟩
          · rw [boldRun_two_none, if_neg hpair]
            rcases (ih (b :: t) hlbt).1 with h | h
            · rw [h]
              exact Or.inl rfl
            · exact Or.inr (List.mem_cons_of_mem a h)
          · intro buf
            rw [boldRun_two_some, if_neg hpair]
            by_cases ha : a = '\n'
            · rw [if_pos ha]
              rcases (ih (b :: t) hlbt).1 with h | h
              · rw [h, ha]
                exact Or.inl (by simp)
              · refine Or.inr (List.mem_append.mpr (Or.inr ?_))
                exact List.mem_cons_of_mem _ h
            · rw [if_neg ha]
              rcases (ih (b :: t) hlbt).2 (a :: buf) with h | h
              · rw [h]
                exact Or.inl (by simp)
              · exact Or.inr h

theorem boldRun_starfree_append {pre : List Char}
    (hp : ∀ c ∈ pre, c ≠ '*') :
    ∀ rest, boldRun (pre ++ rest) none = pre ++ boldRun rest none := by
  induction pre with
  | nil => intro rest; rfl
  | cons c pre2 ih =>
    intro rest
    rw [List.cons_append,
      boldRun_cons_nonstar (hp c (List.mem_cons_self c pre2)),
      ih (fun d hd => hp d (List.mem_cons_of_mem c hd)) rest, List.cons_append]

theorem boldRun_starfree :
    ∀ xs : List Char, (∀ c ∈ xs, c ≠ '*' ∧ c ≠ '\n') →
      boldRun xs none = xs ∧
      (∀ buf, boldRun xs (some buf) = '*' :: '*' :: buf.reverse ++ xs) := by
  intro xs
  induction xs with
  | nil => exact fun _ => ⟨rfl, fun buf => by simp [boldRun]⟩
  | cons c tail ih =>
    intro h
    have hc := h c (List.mem_cons_self c tail)
    have htail := fun d hd => h d (List.mem_cons_of_mem c hd)
    cases tail with
    | nil =>
      refine ⟨rfl, ?_⟩
      intro buf
      rw [boldRun_one_some, if_neg hc.2]
      simp
    | cons c2 t2 =>
      have hc2 := htail c2 (List.mem_cons_self c2 t2)
      refine ⟨?_, ?_⟩
      · rw [boldRun_two_none, if_neg (fun hpp => hc.1 hpp.1), (ih htail).1]
      · intro buf
        rw [boldRun_two_some, if_neg (fun hpp => hc.1 hpp.1), if_neg hc.2,
          (ih htail).2 (c :: buf)]
        simp

theorem boldRun_space_suffix :
    ∀ (n : Nat) (m : List Char), m.length ≤ n →
      ∀ suf, (∀ c ∈ suf, c ≠ '*' ∧ c ≠ '\n') →
      ∀ st, boldRun (m ++ suf) st = boldRun m st ++ suf := by
  intro n
  induction n with
  | zero =>
    intro m hlen suf hsuf st
    have : m = [] := List.length_eq_zero.mp (Nat.le_zero.mp hlen)
    subst this
    cases st with
    | none => rw [List.nil_append, (boldRun_starfree suf hsuf).1]; rfl
    | some buf =>
      rw [List.nil_append, (boldRun_starfree suf hsuf).2 buf]
      simp [boldRun]
  | succ n ih =>
    intro m hlen suf hsuf st
    cases m with
    | nil =>
      cases st with
      | none => rw [List.nil_append, (boldRun_starfree suf hsuf).1]; rfl
      | some buf =>
        rw [List.nil_append, (boldRun_starfree suf hsuf).2 buf]
        simp [boldRun]
    | cons a tail =>
      cases tail with
      | nil =>
        cases suf with
        | nil => simp
        | cons s suf2 =>
          have hs := hsuf s (List.mem_cons_self s suf2)
          cases st with
          | none =>
            rw [List.cons_append, List.nil_append, boldRun_two_none,
              if_neg (fun hpp => hs.1 hpp.2),
              (boldRun_starfree (s :: suf2) hsuf).1]
            rfl
          | some buf =>
            rw [List.cons_append, List.nil_append, boldRun_two_some,
              if_neg (fun hpp => hs.1 hpp.2), boldRun_one_some]
            by_cases ha : a = '\n'
            · rw [if_pos ha, if_pos ha,
                (boldRun_starfree (s :: suf2) hsuf).1]
              simp
            · rw [if_neg ha, if_neg ha,
                (boldRun_starfree (s :: suf2) hsuf).2 (a :: buf)]
      | cons b t =>
        have hlt : t.length ≤ n := by simp at hlen; omega
        have hlbt : (b :: t).length ≤ n := by simp at hlen ⊢; omega
        by_cases hpair : a = '*' ∧ b = '*'
        · cases st with
          | none =>
            rw [List.cons_append, List.cons_append, boldRun_two_none,
              if_pos hpair, boldRun_two_none, if_pos hpair,
              ih t hlt suf hsuf (some [])]
          | some buf =>
            rw [List.cons_append, List.cons_append, boldRun_two_some,
              if_pos hpair, boldRun_two_some, if_pos hpair,
              ih t hlt suf hsuf none]
            simp [List.append_assoc]
        · cases st with
          | none =>
            rw [List.cons_append, List.cons_append, boldRun_two_none,
              if_neg hpair, boldRun_two_none, if_neg hpair,
              ← List.cons_append, ih (b :: t) hlbt suf hsuf none,
              List.cons_append]
          | some buf =>
            rw [List.cons_append, List.cons_append, boldRun_two_some,
              if_neg hpair, boldRun_two_some, if_neg hpair]
            by_cases ha : a = '\n'
            · rw [if_pos ha, if_pos ha, ← List.cons_append,
                ih (b :: t) hlbt suf hsuf none]
              simp [List.append_assoc]
            · rw [if_neg ha, if_neg ha, ← List.cons_append,
                ih (b :: t) hlbt suf hsuf (some (a :: buf))]

theorem boldRun_marker_star (m2 : List Char) :
    boldRun ('*' :: ' ' :: m2) none = '*' :: ' ' :: boldRun m2 none := by
  rw [boldRun_two_none, if_neg (fun h => by cases h.2),
    boldRun_cons_nonstar (by decide) m2]

theorem boldRun_marker_dash (m2 : List Char) :
    boldRun ('-' :: ' ' :: m2) none = '-' :: ' ' :: boldRun m2 none := by
  rw [boldRun_cons_nonstar (by decide) (' ' :: m2),
    boldRun_cons_nonstar (by decide) m2]

/-! ### Theorems — claim C4: per-line effect of the bold substitution -/

theorem splitNl_boldSub :
    ∀ (n : Nat) (t : List Char), t.length ≤ n →
      splitNl (boldSub t) = (splitNl t).map boldSub := by
  intro n
  induction n with
  | zero =>
    intro t hlen
    have : t = [] := List.length_eq_zero.mp (Nat.le_zero.mp hlen)
    subst this
    rfl
  | succ n ih =>
    intro t hlen
    by_cases hnl : '\n' ∈ t
    · rcases exists_first_nl t hnl with ⟨a, b, rfl, hna⟩
      have hnley : ∀ c ∈ a, c ≠ '\n' := fun c hc he => hna (he ▸ hc)
      have hsplit : boldSub (a ++ '\n' :: b) = boldSub a ++ '\n' :: boldSub b :=
        boldRun_split_nl a.length a le_rfl hnley b none
      have hbn : '\n' ∉ boldSub a := (boldRun_no_nl a.length a le_rfl hnley).1
      have hlb : b.length ≤ n := by
        have := List.length_append a ('\n' :: b) ▸ hlen
        simp at this
        omega
      rw [hsplit, splitNl_append_nl (boldSub a) hbn (boldSub b), ih b hlb,
        splitNl_append_nl a hna b, List.map_cons]
    · have hnley : ∀ c ∈ t, c ≠ '\n' := fun c hc he => hnl (he ▸ hc)
      have hbn : '\n' ∉ boldSub t := (boldRun_no_nl t.length t le_rfl hnley).1
      rw [splitNl_no_nl t hnl, splitNl_no_nl (boldSub t) hbn, List.map_cons]
      rfl

theorem pyStrip_boldSub_nil {l : List Char} (hnl : '\n' ∉ l) :
    pyStrip (boldSub l) = [] ↔ pyStrip l = [] := by
  constructor
  · intro h
    by_contra hne
    have hsp : ∀ c ∈ boldSub l, isSpace c = true := (pyStrip_eq_nil _).mp h
    rcases (boldRun_id_or_lt l.length l le_rfl).1 with hid | hlt
    · refine hne ((pyStrip_eq_nil l).mpr ?_)
      intro c hc
      have hcb : c ∈ boldSub l := by
        show c ∈ boldRun l none
        rw [hid]
        exact hc
      exact hsp c hcb
    · have := hsp '<' hlt
      simp [isSpace] at this
  · intro h
    have hsp : ∀ c ∈ l, isSpace c = true := (pyStrip_eq_nil l).mp h
    have hfree : ∀ c ∈ l, c ≠ '*' ∧ c ≠ '\n' :=
      fun c hc => ⟨isSpace_ne_star (hsp c hc), fun he => hnl (he ▸ hc)⟩
    rw [show boldSub l = boldRun l none from rfl,
      (boldRun_starfree l hfree).1]
    exact h

theorem pyStrip_boldSub_strip {l : List Char} (hnl : '\n' ∉ l) :
    pyStrip (boldSub l) = pyStrip (boldSub (pyStrip l)) := by
  rcases dropTrail_decomp l with ⟨w, hw, hsp⟩
  have hpre : dropTrail l =
      (dropTrail l).takeWhile isSpace ++ pyStrip l := by
    conv_lhs => rw [← List.takeWhile_append_dropWhile isSpace (dropTrail l)]
    rfl
  have hl : l = (dropTrail l).takeWhile isSpace ++ (pyStrip l ++ w) := by
    rw [← List.append_assoc, ← hpre, ← hw]
  have hprespace : ∀ c ∈ (dropTrail l).takeWhile isSpace, c ≠ '*' :=
    fun c hc => isSpace_ne_star (List.mem_takeWhile_imp hc)
  have hwfree : ∀ c ∈ w, c ≠ '*' ∧ c ≠ '\n' := by
    intro c hc
    refine ⟨isSpace_ne_star (hsp c hc), fun he => hnl ?_⟩
    rw [hw]
    exact List.mem_append.mpr (Or.inr (he ▸ hc))
  calc pyStrip (boldSub l)
      = pyStrip (boldSub ((dropTrail l).takeWhile isSpace ++ (pyStrip l ++ w))) := by
        rw [← hl]
    _ = pyStrip ((dropTrail l).takeWhile isSpace ++ boldSub (pyStrip l ++ w)) := by
        rw [show boldSub ((dropTrail l).takeWhile isSpace ++ (pyStrip l ++ w)) =
          (dropTrail l).takeWhile isSpace ++ boldSub (pyStrip l ++ w) from
          boldRun_starfree_append hprespace _]
    _ = pyStrip (boldSub (pyStrip l ++ w)) :=
        pyStrip_space_append
          (fun c hc => List.mem_takeWhile_imp hc) _
    _ = pyStrip (boldSub (pyStrip l) ++ w) := by
        rw [show boldSub (pyStrip l ++ w) = boldSub (pyStrip l) ++ w from
          boldRun_space_suffix (pyStrip l).length (pyStrip l) le_rfl w hwfree none]
    _ = pyStrip (boldSub (pyStrip l)) :=
        pyStrip_append_space hsp _

theorem stripFilter_map_boldSub :
    ∀ lines : List (List Char), (∀ l ∈ lines, '\n' ∉ l) →
      stripFilter (lines.map boldSub) =
        (stripFilter lines).map (fun m => pyStrip (boldSub m)) := by
  intro lines
  induction lines with
  | nil => intro _; rfl
  | cons l ls ih =>
    intro h
    have hl := h l (List.mem_cons_self l ls)
    have hls := fun x hx => h x (List.mem_cons_of_mem l hx)
    rw [List.map_cons, stripFilter_cons, stripFilter_cons]
    by_cases hb : pyStrip l = []
    · rw [if_pos hb, if_pos ((pyStrip_boldSub_nil hl).mpr hb), ih hls]
    · rw [if_neg hb, if_neg (fun hc => hb ((pyStrip_boldSub_nil hl).mp hc)),
        List.map_cons, ih hls, pyStrip_boldSub_strip hl]

theorem pyStrip_eq_self_dropTrail {m : List Char} (hs : pyStrip m = m) :
    dropTrail m = m := by
  have h1 : (dropTrail m).Sublist m := dropTrail_sublist m
  have h2 : (pyStrip m).Sublist (dropTrail m) := List.dropWhile_sublist isSpace
  have hlen : (dropTrail m).length = m.length := by
    have e1 := h1.length_le
    have e2 := h2.length_le
    rw [hs] at e2
    omega
  exact h1.eq_of_length hlen

theorem marker_transfer :
    ∀ m : List Char, '\n' ∉ m → pyStrip m = m → isListLine m = true →
      isListLine (pyStrip (boldSub m)) = true := by
  intro m hnl hs hml
  cases m with
  | nil => simp [isListLine] at hml
  | cons c1 m1 =>
    cases m1 with
    | nil => simp [isListLine] at hml
    | cons c2 m2 =>
      simp only [isListLine, decide_eq_true_eq] at hml
      rcases hml with ⟨hc1, hc2⟩
      subst hc2
      have hdt : dropTrail (c1 :: ' ' :: m2) = c1 :: ' ' :: m2 :=
        pyStrip_eq_self_dropTrail hs
      have hm2 : ¬ (∀ c ∈ m2, isSpace c = true) := by
        intro hall
        have h2 : dropTrail m2 = [] := (dropTrail_eq_nil m2).mpr hall
        have h3 : dropTrail (' ' :: m2) = [] := by
          rw [dropTrail_cons, h2]
          rfl
        have h4 : c1 :: ' ' :: m2 = if isSpace c1 = true then [] else [c1] := by
          conv_lhs => rw [← hdt]
          rw [dropTrail_cons, h3]
        by_cases hc : isSpace c1 = true
        · rw [if_pos hc] at h4; cases h4
        · rw [if_neg hc] at h4
          have := congrArg List.tail h4
          simp at this
      have hex : ∃ d ∈ m2, ¬ isSpace d = true := by
        by_contra hno
        push_neg at hno
        exact hm2 hno
      rcases hex with ⟨d, hd, hds⟩
      have hne : dropTrail (boldSub m2) ≠ [] := by
        intro h0
        have hallsp : ∀ c ∈ boldSub m2, isSpace c = true :=
          (dropTrail_eq_nil _).mp h0
        rcases (boldRun_id_or_lt m2.length m2 le_rfl).1 with hid | hlt
        · refine hds (hallsp d ?_)
          show d ∈ boldRun m2 none
          rw [hid]
          exact hd
        · have := hallsp '<' hlt
          simp [isSpace] at this
      have hbold : boldSub (c1 :: ' ' :: m2) = c1 :: ' ' :: boldSub m2 := by
        rcases hc1 with rfl | rfl
        · exact boldRun_marker_star m2
        · exact boldRun_marker_dash m2
      rw [hbold]
      have hst : dropTrail (' ' :: boldSub m2) = ' ' :: dropTrail (boldSub m2) :=
        dropTrail_cons_of_ne ' ' _ hne
      have hc1ne : ¬ isSpace c1 = true := by
        rcases hc1 with rfl | rfl <;> decide
      have hst2 : dropTrail (c1 :: ' ' :: boldSub m2) =
          c1 :: ' ' :: dropTrail (boldSub m2) := by
        rw [dropTrail_cons_of_ne c1 _ (by rw [hst]; simp), hst]
      show isListLine ((dropTrail (c1 :: ' ' :: boldSub m2)).dropWhile isSpace) = true
      rw [hst2, List.dropWhile_cons_of_neg hc1ne]
      simp [isListLine, hc1]

/-! ### Theorems — claim C4: the line loop -/

theorem processLines_cons (l : List Char) (ls : List (List Char)) (b : Bool) :
    processLines (l :: ls) b =
      if pyStrip l = [] then processLines ls b
      else if isListLine (pyStrip l) then
        (if b then [] else "<ul>".data) ++ "<li>".data ++ (pyStrip l).drop 2
          ++ "</li>".data ++ processLines ls true
      else
        (if b then "</ul>".data else []) ++ "<p>".data ++ pyStrip l
          ++ "</p>".data ++ processLines ls false := rfl

theorem processClean_cons (l : List Char) (ls : List (List Char)) (b : Bool) :
    processClean (l :: ls) b =
      if isListLine l then
        (if b then [] else "<ul>".data) ++ "<li>".data ++ l.drop 2
          ++ "</li>".data ++ processClean ls true
      else
        (if b then "</ul>".data else []) ++ "<p>".data ++ l
          ++ "</p>".data ++ processClean ls false := rfl

theorem processLines_eq_processClean :
    ∀ (L : List (List Char)) (b : Bool),
      processLines L b = processClean (stripFilter L) b := by
  intro L
  induction L with
  | nil => intro b; rfl
  | cons l ls ih =>
    intro b
    rw [processLines_cons, stripFilter_cons]
    by_cases hb : pyStrip l = []
    · rw [if_pos hb, if_pos hb, ih b]
    · rw [if_neg hb, if_neg hb, processClean_cons, ih true, ih false]

theorem processClean_ends_ul :
    ∀ (L : List (List Char)) (l : List Char), L.getLast? = some l →
      isListLine l = true → ∀ b, ∃ pre,
      processClean L b = pre ++ "</ul>".data := by
  intro L
  induction L with
  | nil => intro l hl; cases hl
  | cons x xs ih =>
    intro l hl hml b
    cases xs with
    | nil =>
      have hx : x = l := by
        simpa using hl
      subst hx
      rw [processClean_cons, if_pos hml]
      refine ⟨(if b then [] else "<ul>".data) ++ "<li>".data ++ x.drop 2
        ++ "</li>".data, ?_⟩
      show _ = _
      simp [processClean, List.append_assoc]
    | cons y ys =>
      have hl2 : (y :: ys).getLast? = some l := by
        rw [← List.getLast?_cons_cons]
        exact hl
      rw [processClean_cons]
      by_cases hx : isListLine x = true
      · rcases ih l hl2 hml true with ⟨pre, hp⟩
        rw [if_pos hx, hp]
        exact ⟨(if b then [] else "<ul>".data) ++ "<li>".data ++ x.drop 2
          ++ "</li>".data ++ pre, by simp [List.append_assoc]⟩
      · rcases ih l hl2 hml false with ⟨pre, hp⟩
        rw [if_neg hx, hp]
        exact ⟨(if b then "</ul>".data else []) ++ "<p>".data ++ x
          ++ "</p>".data ++ pre, by simp [List.append_assoc]⟩

theorem pyStrip_subset {c : Char} {l : List Char} (h : c ∈ pyStrip l) : c ∈ l :=
  (dropTrail_sublist l).subset ((List.dropWhile_sublist isSpace).subset h)

/-- C4: the markup post-processor maps the two worked examples of the spec
to exactly the expected fragments, and on every input text whose last
non-blank line is a list item the emitted output still ends with the
closing `</ul>` tag. -/
theorem C4_markdown_examples_and_unterminated_list :
    markdown_to_html "**Save** now" = "<p><strong>Save</strong> now</p>" ∧
    markdown_to_html "* A\n* B\nC" = "<ul><li>A</li><li>B</li></ul><p>C</p>" ∧
    (∀ s : String, lastLineIsItem s.data = true →
      endsUl (markdown_to_html s) = true) := by
  refine ⟨by rfl, by rfl, ?_⟩
  intro s h
  unfold lastLineIsItem at h
  cases hlast : (stripFilter (splitNl s.data)).getLast? with
  | none => rw [hlast] at h; cases h
  | some l =>
    rw [hlast] at h
    have hmem : l ∈ stripFilter (splitNl s.data) :=
      List.mem_of_getLast?_eq_some hlast
    unfold stripFilter at hmem
    rcases List.mem_map.mp (List.mem_filter.mp hmem).1 with ⟨l0, hl0, heq⟩
    have hl0nl : '\n' ∉ l0 := mem_splitNl_no_nl _ l0 hl0
    have hlnl : '\n' ∉ l := fun hm => hl0nl (pyStrip_subset (heq ▸ hm))
    have hstr : pyStrip l = l := by rw [← heq]; exact pyStrip_idem l0
    have hmt : isListLine (pyStrip (boldSub l)) = true :=
      marker_transfer l hlnl hstr h
    have hdata : (markdown_to_html s).data =
        processClean (stripFilter (splitNl (pyStrip (boldSub s.data)))) false := by
      show processLines (splitNl (pyStrip (boldSub s.data))) false = _
      exact processLines_eq_processClean _ false
    have hchain : stripFilter (splitNl (pyStrip (boldSub s.data))) =
        (stripFilter (splitNl s.data)).map (fun m => pyStrip (boldSub m)) := by
      rw [stripFilter_splitNl_pyStrip, splitNl_boldSub s.data.length s.data le_rfl,
        stripFilter_map_boldSub _ (mem_splitNl_no_nl s.data)]
    have hlast2 : ((stripFilter (splitNl s.data)).map
        (fun m => pyStrip (boldSub m))).getLast? = some (pyStrip (boldSub l)) := by
      rw [List.getLast?_map, hlast]
      rfl
    rcases processClean_ends_ul _ _ hlast2 hmt false with ⟨pre, hp⟩
    have hout : (markdown_to_html s).data = pre ++ "</ul>".data := by
      rw [hdata, hchain, hp]
    unfold endsUl
    rw [hout, List.reverse_append, List.take_left' (by rfl)]
    simp

/-- C4, witness for the universal part: a one-line list-item input. -/
theorem C4_witness :
    lastLineIsItem "Heading\n* item".data = true ∧
    endsUl (markdown_to_html "Heading\n* item") = true :=
  ⟨by rfl,
   C4_markdown_examples_and_unterminated_list.2.2 "Heading\n* item" (by rfl)⟩
